import Mathlib

/-!
# Wave planning and wave execution of `migrate_down.go`

A shallow embedding of `src/migrate_down.go`.

* A Go `map[string]V` is an association list with pairwise distinct keys
  (`GoMap V`).  Go leaves the iteration order of `range` over a map
  unspecified, so every `range` over a map asks a `RangeOrder` for the order in
  which the keys are visited; a `RangeOrder` may answer with any permutation,
  and may answer differently at every `range` statement.
* A pointer `*Table` is an `Option Table` (`none` is the nil pointer), a
  `map[string]bool` that may be nil is an `Option (GoMap Bool)`.
* A run-time panic and an exhausted iteration budget are values of `Fault`.
-/

namespace MigrateDown

/-- The worker budget: `maxWorkers = 4`. -/
def maxWorkers : Nat := 4

/-- Abnormal ends of a call. -/
inductive Fault where
  /-- Run-time panic: nil pointer dereference or assignment to an entry of a nil map. -/
  | nilDeref
  /-- The loop of the model was given too few iterations. -/
  | outOfFuel
  /-- The error value returned by a failed query or a failed `Scan`. -/
  | queryError (msg : String)
  deriving DecidableEq, Repr

deriving instance DecidableEq for Except

/-- A Go `map[string]V`. -/
abbrev GoMap (V : Type) := AList (fun _ : String => V)

/-- The Go `Table` struct. `Dependencies = none` is the nil map. -/
structure Table where
  Name : String
  Dependencies : Option (GoMap Bool)
  deriving DecidableEq

/-- The Go `Wave` struct. `Number` is a Go `int`; it counts waves from 1 and
stays below the number of map entries plus one, so it is a natural number. -/
structure Wave where
  Tables : List String
  Number : Nat
  deriving DecidableEq, Repr

/-- The iteration order of the `range` statements over maps: `order i keys` is
the order in which the `i`-th `range` visits the key set `keys`. -/
structure RangeOrder where
  order : Nat → List String → List String
  perm : ∀ i l, (order i l).Perm l

/-- The order that visits the keys as they are stored. -/
def storedOrder : RangeOrder := ⟨fun _ l => l, fun _ l => List.Perm.refl l⟩

/-- The order that visits the keys back to front. -/
def reverseOrder : RangeOrder := ⟨fun _ l => l.reverse, fun _ l => List.reverse_perm l⟩

/-- The keys of `t.Dependencies`; `range` over a nil map visits nothing. -/
def dependencyKeys (t : Table) : List String :=
  match t.Dependencies with
  | none => []
  | some m => m.keys

/-- The value of the Go expression `m[k]` for a `map[string]bool`: the stored value,
or `false` when the key is absent. -/
def index (m : GoMap Bool) (k : String) : Bool :=
  match m.lookup k with
  | some b => b
  | none => false

/-- Lines 107-113: the inner loop over `tables[tableName].Dependencies`, with the
keys visited in the order `deps`. -/
def hasDependency (remainingTables : GoMap Bool) : List String → Bool
  | [] => false
  | depTable :: rest =>
    if index remainingTables depTable then true else hasDependency remainingTables rest

/-- Lines 106-118: the loop over `remainingTables` that fills `currentWave`, with
the keys visited in the order of the third argument. `tables[tableName]` is nil
when the key is absent or the stored pointer is nil, and reading its field
`Dependencies` then panics. -/
def collectWave (tables : GoMap (Option Table)) (remainingTables : GoMap Bool) :
    List String → List String → Except Fault (List String)
  | [], currentWave => .ok currentWave
  | tableName :: rest, currentWave =>
    match tables.lookup tableName with
    | some (some t) =>
      if hasDependency remainingTables (dependencyKeys t) then
        collectWave tables remainingTables rest currentWave
      else
        collectWave tables remainingTables rest (currentWave ++ [tableName])
    | _ => .error .nilDeref

/-- Lines 121-127: when `currentWave` is empty, append the first key that a fresh
`range` over `remainingTables` visits. -/
def breakCycle (visit : List String) (currentWave : List String) : List String :=
  if currentWave.length = 0 then
    match visit with
    | [] => currentWave
    | tableName :: _ => currentWave ++ [tableName]
  else currentWave

/-- Lines 130-132: delete every name of `currentWave` from `remainingTables`. -/
def removeMigrated (remainingTables : GoMap Bool) : List String → GoMap Bool
  | [] => remainingTables
  | tableName :: rest => removeMigrated (remainingTables.erase tableName) rest

/-- The state of the loop of `groupTablesIntoWaves` between two iterations. -/
structure LoopState where
  remainingTables : GoMap Bool
  waveNum : Nat
  waves : List Wave

/-- Lines 104-135: one pass through the body of the `for len(remainingTables) > 0`
loop. The two `range` statements over `remainingTables` of the pass with wave
number `n` are the `range` statements `2 * n` and `2 * n + 1`. -/
def waveIteration (ord : RangeOrder) (tables : GoMap (Option Table)) (s : LoopState) :
    Except Fault LoopState :=
  match collectWave tables s.remainingTables
      (ord.order (2 * s.waveNum) s.remainingTables.keys) [] with
  | .error e => .error e
  | .ok collected =>
    let currentWave :=
      breakCycle (ord.order (2 * s.waveNum + 1) s.remainingTables.keys) collected
    .ok { remainingTables := removeMigrated s.remainingTables currentWave
          waveNum := s.waveNum + 1
          waves := s.waves ++ [{ Tables := currentWave, Number := s.waveNum }] }

/-- Lines 103-136: the loop, run for at most `fuel` iterations. -/
def wavesLoop (ord : RangeOrder) (tables : GoMap (Option Table)) :
    Nat → LoopState → Except Fault (List Wave)
  | 0, s => if s.remainingTables.keys.length > 0 then .error .outOfFuel else .ok s.waves
  | fuel + 1, s =>
    if s.remainingTables.keys.length > 0 then
      match waveIteration ord tables s with
      | .error e => .error e
      | .ok s' => wavesLoop ord tables fuel s'
    else .ok s.waves

/-- Lines 97-100: `remainingTables[tableName] = true` for the keys in the order given. -/
def initRemaining : List String → GoMap Bool → GoMap Bool
  | [], remainingTables => remainingTables
  | tableName :: rest, remainingTables =>
    initRemaining rest (remainingTables.insert tableName true)

/-- The function `groupTablesIntoWaves`, its loop run for at most `fuel` iterations. -/
def groupTablesIntoWaves (ord : RangeOrder) (fuel : Nat) (tables : GoMap (Option Table)) :
    Except Fault (List Wave) :=
  wavesLoop ord tables fuel
    { remainingTables := initRemaining (ord.order 0 tables.keys) ∅
      waveNum := 1
      waves := [] }

/-- Build a Go map from a list of bindings, later bindings overwriting earlier ones. -/
def GoMap.ofList {V : Type} (l : List (String × V)) : GoMap V :=
  l.foldl (fun m kv => m.insert kv.1 kv.2) ∅

/-- A table whose dependency set holds the names `deps`. -/
def mkTable (name : String) (deps : List String) : Option Table :=
  some { Name := name, Dependencies := some (GoMap.ofList (deps.map fun d => (d, true))) }

/-- Scenario A: `orders` references `users`, `line_items` references `orders`. -/
def chainTables : GoMap (Option Table) :=
  GoMap.ofList [("users", mkTable "users" []), ("orders", mkTable "orders" ["users"]),
    ("line_items", mkTable "line_items" ["orders"])]

/-- Scenario B: two tables without foreign keys. -/
def flatTables : GoMap (Option Table) :=
  GoMap.ofList [("a", mkTable "a" []), ("b", mkTable "b" [])]

/-- The two-table cycle: `A` references `B` and `B` references `A`. -/
def cycleTables : GoMap (Option Table) :=
  GoMap.ofList [("A", mkTable "A" ["B"]), ("B", mkTable "B" ["A"])]


/-! ## `getDependencies` -/

/-- What `db.Query` hands back: the error of the query, or the rows that
`rows.Next()` delivers, each with the result of its `rows.Scan`. -/
abbrev QueryResult := Except String (List (Except String String))

/-- The metadata source behind `*sql.DB`: the answer to the table query and, for
each table name bound to `$1`, the answer to the foreign-key query. -/
structure Database where
  listTables : QueryResult
  foreignKeys : String → QueryResult

/-- Lines 54-63: the loop over the rows of the table query. -/
def scanTables : List (Except String String) → GoMap (Option Table) →
    Except Fault (GoMap (Option Table))
  | [], tables => .ok tables
  | .error e :: _, _ => .error (.queryError e)
  | .ok tableName :: rest, tables =>
    scanTables rest (tables.insert tableName (some { Name := tableName, Dependencies := some ∅ }))

/-- Lines 79-88: the loop over the rows of the foreign-key query of `tableName`.
The assignment `tables[tableName].Dependencies[foreignTable] = true` writes through
the pointer stored under `tableName`, and panics when that pointer or the map
behind it is nil. -/
def scanForeign (tableName : String) : List (Except String String) →
    GoMap (Option Table) → Except Fault (GoMap (Option Table))
  | [], tables => .ok tables
  | .error e :: _, _ => .error (.queryError e)
  | .ok foreignTable :: rest, tables =>
    if (tables.lookup foreignTable).isSome then
      match tables.lookup tableName with
      | some (some t) =>
        match t.Dependencies with
        | some deps =>
          scanForeign tableName rest
            (tables.insert tableName
              (some { Name := t.Name, Dependencies := some (deps.insert foreignTable true) }))
        | none => .error .nilDeref
      | _ => .error .nilDeref
    else scanForeign tableName rest tables

/-- Lines 66-90: the loop over the keys of `tables`, visited in the order given. -/
def foreignLoop (db : Database) : List String → GoMap (Option Table) →
    Except Fault (GoMap (Option Table))
  | [], tables => .ok tables
  | tableName :: rest, tables =>
    match db.foreignKeys tableName with
    | .error e => .error (.queryError e)
    | .ok rows =>
      match scanForeign tableName rows tables with
      | .error e => .error e
      | .ok tables' => foreignLoop db rest tables'

/-- The function `getDependencies`. -/
def getDependencies (ord : RangeOrder) (db : Database) : Except Fault (GoMap (Option Table)) :=
  match db.listTables with
  | .error e => .error (.queryError e)
  | .ok rows =>
    match scanTables rows ∅ with
    | .error e => .error e
    | .ok tables => foreignLoop db (ord.order 0 tables.keys) tables

/-- A metadata source whose queries all succeed: the table query yields the
names `E`, the foreign-key query of `name` yields `edgesOf name`. -/
def successfulDb (E : List String) (edgesOf : String → List String) : Database where
  listTables := .ok (E.map .ok)
  foreignKeys := fun name => .ok ((edgesOf name).map .ok)

/-- The foreign keys of a small schema: `orders` references `users` and a table
`users_backup` that is not eligible. -/
def sampleEdges (name : String) : List String :=
  if name = "orders" then ["users", "users_backup"] else []

/-! ## `migrateTable` -/

/-- What `cmd.Run()` leaves behind: its error (`none` is nil) and the two captured
output streams. -/
structure CmdResult where
  err : Option String
  stdout : String
  stderr : String

/-- The collaborators of one call of `migrateTable`: the staging allocator
`os.MkdirTemp`, `filepath.Join`, `pg_dump` run on a table with an output file,
`os.Stat` on the dump file (its error, or `fileInfo.Size()`), and `psql` run on
the dump file. -/
structure Collaborators where
  mkdirTemp : Except String String
  join : String → String → String
  pgDump : String → String → CmdResult
  stat : String → Except String Int
  psql : String → CmdResult

/-- What a call of `migrateTable` does, step by step. -/
inductive Event where
  /-- The send `semaphore <- struct{}{}`. -/
  | acquire
  /-- The deferred `<-semaphore`. -/
  | release
  /-- The deferred `wg.Done()`. -/
  | wgDone
  /-- A call of `log.Printf`. -/
  | log (msg : String)
  /-- The call `os.MkdirTemp("", "dbmigration")`. -/
  | mkdirTemp
  /-- The deferred `os.RemoveAll(tempDir)`. -/
  | removeAll (dir : String)
  /-- The call `dumpCmd.Run()`. -/
  | pgDump (table dumpFile : String)
  /-- The call `os.Stat(dumpFile)`. -/
  | stat (dumpFile : String)
  /-- The call `importCmd.Run()`. -/
  | psql (dumpFile : String)
  /-- The send `errChan <- err`. -/
  | send (err : String)
  deriving DecidableEq, Repr

/-- Line 158: the path of the dump file inside the staging directory. -/
def dumpFile (env : Collaborators) (tempDir table : String) : String :=
  env.join tempDir (table ++ "_dump.sql")

/-- The function `migrateTable` as the sequence of its steps. The deferred calls
run when the function returns, last deferred first: `os.RemoveAll` once the
staging directory exists, then the receive from `semaphore`, then `wg.Done()`. -/
def migrateTable (env : Collaborators) (table : String) (waveNum : Nat) : List Event :=
  [.acquire,
    .log ("Starting migration for table " ++ table ++ " (Wave " ++ toString waveNum ++ ")"),
    .mkdirTemp] ++
  match env.mkdirTemp with
  | .error err =>
    [.send ("failed to create temp dir for table " ++ table ++ ": " ++ err),
      .release, .wgDone]
  | .ok tempDir =>
    let file := dumpFile env tempDir table
    .pgDump table file ::
    match (env.pgDump table file).err with
    | some err =>
      [.send ("failed to dump table " ++ table ++ ": " ++ err ++ "\nStdout: " ++
          (env.pgDump table file).stdout ++ "\nStderr: " ++
          (env.pgDump table file).stderr),
        .removeAll tempDir, .release, .wgDone]
    | none =>
      .stat file ::
      match env.stat file with
      | .error err =>
        [.send ("dump file for " ++ table ++ " not found: " ++ err),
          .removeAll tempDir, .release, .wgDone]
      | .ok size =>
        if size = 0 then
          [.send ("dump file for " ++ table ++ " is empty"),
            .removeAll tempDir, .release, .wgDone]
        else
          .psql file ::
          match (env.psql file).err with
          | some err =>
            [.send ("failed to import table " ++ table ++ ": " ++ err ++ "\nStdout: " ++
                (env.psql file).stdout ++ "\nStderr: " ++ (env.psql file).stderr),
              .removeAll tempDir, .release, .wgDone]
          | none =>
            [.log ("Successfully migrated table " ++ table ++ " (Wave " ++
                toString waveNum ++ ")"),
              .removeAll tempDir, .release, .wgDone]

/-- The step is a call of a collaborator stage. -/
def Event.isCall : Event → Bool
  | .mkdirTemp => true
  | .pgDump _ _ => true
  | .stat _ => true
  | .psql _ => true
  | _ => false

/-- The collaborator stages that a run invokes, in order. -/
def calls (run : List Event) : List Event := run.filter Event.isCall

/-- The errors that a run sends on `errChan`, in order. -/
def sent (run : List Event) : List String :=
  run.filterMap fun e => match e with
    | .send err => some err
    | _ => none

/-- All four stages succeed: the staging directory is made, `pg_dump` ends without
error, the dump file exists with a size other than 0, `psql` ends without error. -/
def AllStagesSucceed (env : Collaborators) (table : String) : Prop :=
  ∃ tempDir, env.mkdirTemp = .ok tempDir ∧
    (env.pgDump table (dumpFile env tempDir table)).err = none ∧
    (∃ size, env.stat (dumpFile env tempDir table) = .ok size ∧ size ≠ 0) ∧
    (env.psql (dumpFile env tempDir table)).err = none

/-- The stages invoked and the errors sent by a job, case by case: the stages run
in the order staging, dump, verify, restore; the first stage that fails ends the
job with one error that names the table and the cause; when none fails nothing
is sent. -/
inductive Outcome (env : Collaborators) (table : String) : List Event → List String → Prop
  | stagingFailed (err : String) : env.mkdirTemp = .error err →
      Outcome env table [.mkdirTemp]
        ["failed to create temp dir for table " ++ table ++ ": " ++ err]
  | dumpFailed (tempDir err : String) : env.mkdirTemp = .ok tempDir →
      (env.pgDump table (dumpFile env tempDir table)).err = some err →
      Outcome env table [.mkdirTemp, .pgDump table (dumpFile env tempDir table)]
        ["failed to dump table " ++ table ++ ": " ++ err ++ "\nStdout: " ++
          (env.pgDump table (dumpFile env tempDir table)).stdout ++ "\nStderr: " ++
          (env.pgDump table (dumpFile env tempDir table)).stderr]
  | dumpMissing (tempDir err : String) : env.mkdirTemp = .ok tempDir →
      (env.pgDump table (dumpFile env tempDir table)).err = none →
      env.stat (dumpFile env tempDir table) = .error err →
      Outcome env table
        [.mkdirTemp, .pgDump table (dumpFile env tempDir table),
          .stat (dumpFile env tempDir table)]
        ["dump file for " ++ table ++ " not found: " ++ err]
  | dumpEmpty (tempDir : String) : env.mkdirTemp = .ok tempDir →
      (env.pgDump table (dumpFile env tempDir table)).err = none →
      env.stat (dumpFile env tempDir table) = .ok 0 →
      Outcome env table
        [.mkdirTemp, .pgDump table (dumpFile env tempDir table),
          .stat (dumpFile env tempDir table)]
        ["dump file for " ++ table ++ " is empty"]
  | restoreFailed (tempDir : String) (size : Int) (err : String) :
      env.mkdirTemp = .ok tempDir →
      (env.pgDump table (dumpFile env tempDir table)).err = none →
      env.stat (dumpFile env tempDir table) = .ok size → size ≠ 0 →
      (env.psql (dumpFile env tempDir table)).err = some err →
      Outcome env table
        [.mkdirTemp, .pgDump table (dumpFile env tempDir table),
          .stat (dumpFile env tempDir table), .psql (dumpFile env tempDir table)]
        ["failed to import table " ++ table ++ ": " ++ err ++ "\nStdout: " ++
          (env.psql (dumpFile env tempDir table)).stdout ++ "\nStderr: " ++
          (env.psql (dumpFile env tempDir table)).stderr]
  | migrated (tempDir : String) (size : Int) : env.mkdirTemp = .ok tempDir →
      (env.pgDump table (dumpFile env tempDir table)).err = none →
      env.stat (dumpFile env tempDir table) = .ok size → size ≠ 0 →
      (env.psql (dumpFile env tempDir table)).err = none →
      Outcome env table
        [.mkdirTemp, .pgDump table (dumpFile env tempDir table),
          .stat (dumpFile env tempDir table), .psql (dumpFile env tempDir table)]
        []

/-- Collaborators that all succeed, with a dump file of 120 bytes. -/
def healthy : Collaborators where
  mkdirTemp := .ok "/tmp/dbmigration1"
  join := fun dir file => dir ++ "/" ++ file
  pgDump := fun _ _ => ⟨none, "", ""⟩
  stat := fun _ => .ok 120
  psql := fun _ => ⟨none, "", ""⟩

/-- Collaborators whose `pg_dump` leaves an empty file behind. -/
def emptyDump : Collaborators := { healthy with stat := fun _ => .ok 0 }

/-- Collaborators whose `pg_dump` fails. -/
def brokenDump : Collaborators :=
  { healthy with pgDump := fun _ _ => ⟨some "exit status 1", "", "connection refused"⟩ }

/-! ## The wave loop of `main` -/

/-- What `main` does in its wave loop, step by step. -/
inductive MainEvent where
  /-- A call of `log.Printf`. -/
  | log (msg : String)
  /-- The calls `wg.Add(1)` and `go migrateTable(ctx, table, wave.Number, &wg, errChan)`. -/
  | launch (table : String) (waveNum : Nat)
  /-- The call `time.Sleep(100 * time.Millisecond)`. -/
  | sleep
  /-- A call of `log.Fatal`: the message is logged and the process exits with status 1. -/
  | fatal (msg : String)
  /-- The last `log.Printf`, "Migration completed successfully in ... seconds". -/
  | completed
  deriving DecidableEq, Repr

/-- What happens around `main` while it waits for one wave: how the collaborators
answer the job of each table, whether the `select` takes the `time.After` branch
instead of the `wgDone` branch, and the order in which the errors of the jobs
arrive on `errChan`. -/
structure WaveRun where
  jobs : String → Collaborators
  timedOut : Bool
  arrival : RangeOrder

/-- Lines 311-316: the loop that starts one job for each table of the wave. -/
def launchJobs (waveNum : Nat) : List String → List MainEvent
  | [] => []
  | table :: rest => .launch table waveNum :: .sleep :: launchJobs waveNum rest

/-- The content of `errChan` once `wgDone` is closed: every job of the wave has
returned, so the channel holds what the jobs sent, in the order of arrival. Its
capacity is the number of tables and a job sends at most once, so no send blocks. -/
def errChan (run : WaveRun) (wave : Wave) : List String :=
  run.arrival.order 0
    (wave.Tables.flatMap fun table => sent (migrateTable (run.jobs table) table wave.Number))

/-- Lines 330-335: the loop over the closed `errChan`. Every value on the channel
is a `fmt.Errorf` value, hence not nil. -/
def drain : List String → Bool → Bool × List MainEvent
  | [], failed => (failed, [])
  | err :: rest, _ => ((drain rest true).1, .log ("Error: " ++ err) :: (drain rest true).2)

/-- Lines 326-339: the `select`; the result is the new value of `failed` and what
is logged. -/
def awaitWave (run : WaveRun) (wave : Wave) (failed : Bool) : Bool × List MainEvent :=
  if run.timedOut then
    (true, [.log ("Wave " ++ toString wave.Number ++ " timed out after 15 minutes")])
  else drain (errChan run wave) failed

/-- Lines 304-347: the loop over `waves` from the wave with index `i` on, entered
with the value `failed`, and the success message after it. -/
def waveLoop (runs : Nat → WaveRun) : Nat → Bool → List Wave → List MainEvent
  | _, _, [] => [.completed]
  | i, failed, wave :: rest =>
    .log ("Processing wave " ++ toString wave.Number ++ " with " ++
        toString wave.Tables.length ++ " tables") ::
      (launchJobs wave.Number wave.Tables ++ (awaitWave (runs i) wave failed).2 ++
        if (awaitWave (runs i) wave failed).1 then [.fatal "Migration failed"]
        else waveLoop runs (i + 1) (awaitWave (runs i) wave failed).1 rest)

/-- The jobs that a run of the wave loop starts, in order. -/
def launched (run : List MainEvent) : List (String × Nat) :=
  run.filterMap fun e => match e with
    | .launch table waveNum => some (table, waveNum)
    | _ => none

/-- The jobs of the waves `ws`, in order. -/
def jobsOf (ws : List Wave) : List (String × Nat) :=
  ws.flatMap fun w => w.Tables.map fun table => (table, w.Number)

/-- The wave with index `i` is reported failed: `failed` is set after its `select`. -/
def waveFailed (runs : Nat → WaveRun) (i : Nat) (wave : Wave) : Bool :=
  (awaitWave (runs i) wave false).1

/-- A wave run in which every job succeeds and the jobs end in time. -/
def calmRun : WaveRun := ⟨fun _ => healthy, false, storedOrder⟩

/-- A wave run in which every job succeeds and the timeout fires first. -/
def lateRun : WaveRun := ⟨fun _ => healthy, true, storedOrder⟩

/-- A wave run in which the job of `orders` fails in `pg_dump`. -/
def brokenRun : WaveRun :=
  ⟨fun table => if table = "orders" then brokenDump else healthy, false, storedOrder⟩

/-- The step ends the run of `main`: the fatal exit or the success message. -/
def MainEvent.isEnd : MainEvent → Bool
  | .fatal _ => true
  | .completed => true
  | _ => false

/-! ## The semaphore -/

/-- A goroutine that runs `migrateTable`: the steps it has taken and the steps it
has still to take. -/
structure Job where
  done : List Event
  todo : List Event

/-- The goroutines of a run and the channel `semaphore`, a buffered channel of
capacity `maxWorkers`: `permits` is the number of values in its buffer. -/
structure Pool where
  permits : Nat
  jobs : List Job

/-- The next step of a goroutine. A send on `semaphore` goes through only while the
buffer is not full, a receive only while it is not empty; otherwise the goroutine
is blocked. A goroutine that has returned has no step. -/
def Job.step (permits : Nat) (job : Job) : Option (Nat × Job) :=
  match job.todo with
  | [] => none
  | .acquire :: rest =>
    if permits < maxWorkers then some (permits + 1, ⟨job.done ++ [.acquire], rest⟩) else none
  | .release :: rest =>
    if 0 < permits then some (permits - 1, ⟨job.done ++ [.release], rest⟩) else none
  | e :: rest => some (permits, ⟨job.done ++ [e], rest⟩)

/-- The scheduler lets goroutine `j` take its next step; nothing happens when
there is no such goroutine, or it is blocked, or it has returned. -/
def Pool.step (p : Pool) (j : Nat) : Pool :=
  match p.jobs[j]? with
  | none => p
  | some job =>
    match job.step p.permits with
    | none => p
    | some (permits, job') => { permits := permits, jobs := p.jobs.set j job' }

/-- An interleaving: the goroutines take steps in the order of `schedule`. -/
def Pool.run (p : Pool) (schedule : List Nat) : Pool := schedule.foldl Pool.step p

/-- The goroutine has acquired the semaphore and not yet released it. -/
def Job.holdsPermit (job : Job) : Bool :=
  decide (Event.acquire ∈ job.done ∧ Event.release ∉ job.done)

/-- The number of goroutines that hold a permit. -/
def Pool.holders (p : Pool) : Nat := p.jobs.countP Job.holdsPermit

/-- The start of a run: an empty semaphore and one goroutine, not yet started, for
each job, with the collaborators, the table and the wave number of the job. -/
def startPool (specs : List (Collaborators × String × Nat)) : Pool where
  permits := 0
  jobs := specs.map fun spec => ⟨[], migrateTable spec.1 spec.2.1 spec.2.2⟩

/-- The steps of the goroutine, taken or not, begin with the only `acquire` and
hold one `release`. -/
def JobShape (job : Job) : Prop :=
  ∃ tail, job.done ++ job.todo = .acquire :: tail ∧ Event.acquire ∉ tail ∧
    tail.count .release = 1

/-- The state of the pool is consistent: every goroutine has the shape of a job,
the buffer holds one value for each goroutine that holds a permit, and no more
than `maxWorkers` values. -/
def PoolInv (p : Pool) : Prop :=
  (∀ job ∈ p.jobs, JobShape job) ∧ p.jobs.countP Job.holdsPermit = p.permits ∧
    p.permits ≤ maxWorkers

/-- Six jobs whose collaborators all succeed. -/
def sixJobs : List (Collaborators × String × Nat) :=
  [(healthy, "a", 1), (healthy, "b", 1), (healthy, "c", 1), (healthy, "d", 1),
    (healthy, "e", 1), (healthy, "f", 1)]

/-! ## Vocabulary of the statements -/

/-- The dependency names of the table stored under `name`; nothing when the key
is absent or the pointer is nil. -/
def depsOf (tables : GoMap (Option Table)) (name : String) : List String :=
  match tables.lookup name with
  | some (some t) => dependencyKeys t
  | _ => []

/-- Every key of `tables` holds a non-nil pointer. -/
def NonNil (tables : GoMap (Option Table)) : Prop :=
  ∀ name ∈ tables.keys, tables.lookup name ≠ some none

instance (tables : GoMap (Option Table)) : Decidable (NonNil tables) := by
  unfold NonNil; infer_instance

/-- The edge relation of the graph: `t` names `d` in its `Dependencies`. -/
def DependsOn (tables : GoMap (Option Table)) (t d : String) : Prop :=
  d ∈ depsOf tables t

/-- No table reaches itself through `Dependencies`, self-references included. -/
def Acyclic (tables : GoMap (Option Table)) : Prop :=
  ∀ t, ¬ Relation.TransGen (DependsOn tables) t t

/-- The names in the waves `ws`, in order. -/
def placed : List Wave → List String
  | [] => []
  | w :: ws => w.Tables ++ placed ws

/-- The table `t` has no dependency among the names `R`. -/
def ready (tables : GoMap (Option Table)) (R : List String) (t : String) : Bool :=
  !(depsOf tables t).any fun d => decide (d ∈ R)

/-- Every stored value of the set `m` is `true`. -/
def AllTrue (m : GoMap Bool) : Prop := ∀ k b, m.lookup k = some b → b = true

/-- The layering that the loop computes from the unplaced names `R` and the next
wave number `n`: each wave is either the set of all ready unplaced tables, or,
when no unplaced table is ready, a single unplaced table. -/
inductive Plan (tables : GoMap (Option Table)) : List String → Nat → List Wave → Prop
  | done (n : Nat) : Plan tables [] n []
  | layer {R R' : List String} {n : Nat} {w : Wave} {ws : List Wave} :
      w.Number = n → w.Tables.Nodup → w.Tables ≠ [] →
      (∀ t, t ∈ w.Tables ↔ t ∈ R ∧ ready tables R t = true) →
      R'.Nodup → (∀ x, x ∈ R' ↔ x ∈ R ∧ x ∉ w.Tables) →
      Plan tables R' (n + 1) ws → Plan tables R n (w :: ws)
  | forced {R R' : List String} {n : Nat} {w : Wave} {ws : List Wave} (t : String) :
      (∀ x ∈ R, ready tables R x = false) → t ∈ R →
      w.Number = n → w.Tables = [t] →
      R'.Nodup → (∀ x, x ∈ R' ↔ x ∈ R ∧ x ∉ w.Tables) →
      Plan tables R' (n + 1) ws → Plan tables R n (w :: ws)

/-- The wave `w` holds exactly the tables of `K` outside `done` all of whose
dependencies in `K` are in `done`, and there is such a table. -/
def LayerOf (tables : GoMap (Option Table)) (K done : List String) (w : Wave) : Prop :=
  w.Tables ≠ [] ∧
    ∀ t, t ∈ w.Tables ↔ (t ∈ K ∧ t ∉ done) ∧ ∀ d ∈ depsOf tables t, d ∈ K → d ∈ done

/-- The wave `w` comes from cycle-breaking: every table of `K` outside `done` has
a dependency in `K` outside `done`, and `w` holds one such table and nothing else. -/
def ForcedOf (tables : GoMap (Option Table)) (K done : List String) (w : Wave) : Prop :=
  (∀ x ∈ K, x ∉ done → ∃ d ∈ depsOf tables x, d ∈ K ∧ d ∉ done) ∧
    ∃ t ∈ K, t ∉ done ∧ w.Tables = [t]

/-- The `Number` of the first wave of `ws` that holds `t`, and 0 when there is none. -/
def waveNumberOf (ws : List Wave) (t : String) : Nat :=
  match ws.find? fun w => decide (t ∈ w.Tables) with
  | some w => w.Number
  | none => 0

/-- The tables of `K` outside `done` all of whose dependencies in `K` are in `done`. -/
def layerTables (tables : GoMap (Option Table)) (K done : List String) : List String :=
  K.filter fun t =>
    decide (t ∉ done) && (depsOf tables t).all fun d => decide (d ∈ K → d ∈ done)

/-- An order of the three tables of scenario A along the foreign keys. -/
def chainRank (name : String) : Nat :=
  if name = "users" then 0 else if name = "orders" then 1 else 2

/-- The state that `getDependencies` keeps between two tables of its second
loop: the keys are the eligible names `E`, every entry is a non-nil table named
by its key whose dependency set holds `true` only and only eligible names that
`edgesOf` lists, and the tables in `P` are done. -/
def Good (E : List String) (edgesOf : String → List String) (tables : GoMap (Option Table))
    (P : String → Prop) : Prop :=
  (∀ x, x ∈ tables.keys ↔ x ∈ E) ∧
    ∀ name ∈ E, ∃ deps, tables.lookup name = some (some ⟨name, some deps⟩) ∧
      AllTrue deps ∧ (∀ d ∈ deps.keys, d ∈ edgesOf name ∧ d ∈ E) ∧
      (P name → ∀ d ∈ edgesOf name, d ∈ E → d ∈ deps.keys)

/-! ## The sets `remainingTables` -/

theorem index_eq_true_iff {m : GoMap Bool} (h : AllTrue m) (k : String) :
    index m k = true ↔ k ∈ m.keys := by
  unfold index
  cases hk : m.lookup k with
  | none =>
    have : k ∉ m := AList.lookup_eq_none.mp hk
    simpa [AList.mem_keys] using this
  | some b =>
    have hb := h k b hk
    subst hb
    have : k ∈ m := by
      rw [← AList.lookup_isSome, hk]; rfl
    simpa [AList.mem_keys] using this

theorem allTrue_empty : AllTrue (∅ : GoMap Bool) := by
  intro k b h
  simp at h

theorem allTrue_insert {m : GoMap Bool} (h : AllTrue m) (a : String) :
    AllTrue (m.insert a true) := by
  intro k b hk
  by_cases hka : k = a
  · subst hka
    rw [AList.lookup_insert] at hk
    exact (Option.some.inj hk).symm
  · rw [AList.lookup_insert_ne hka] at hk
    exact h k b hk

theorem allTrue_erase {m : GoMap Bool} (h : AllTrue m) (a : String) :
    AllTrue (m.erase a) := by
  intro k b hk
  by_cases hka : k = a
  · subst hka
    rw [AList.lookup_erase] at hk
    exact absurd hk (by simp)
  · rw [AList.lookup_erase_ne hka] at hk
    exact h k b hk

theorem allTrue_initRemaining (l : List String) :
    ∀ m : GoMap Bool, AllTrue m → AllTrue (initRemaining l m) := by
  induction l with
  | nil => intro m h; exact h
  | cons a l ih => intro m h; exact ih _ (allTrue_insert h a)

theorem mem_initRemaining (l : List String) :
    ∀ (m : GoMap Bool) (x : String),
      x ∈ (initRemaining l m).keys ↔ x ∈ l ∨ x ∈ m.keys := by
  induction l with
  | nil => intro m x; simp [initRemaining]
  | cons a l ih =>
    intro m x
    have hk : x ∈ (m.insert a true).keys ↔ x = a ∨ x ∈ m.keys := AList.mem_insert m
    rw [initRemaining, ih, hk, List.mem_cons]
    constructor
    · rintro (h | h | h)
      · exact Or.inl (Or.inr h)
      · exact Or.inl (Or.inl h)
      · exact Or.inr h
    · rintro ((h | h) | h)
      · exact Or.inr (Or.inl h)
      · exact Or.inl h
      · exact Or.inr (Or.inr h)

theorem allTrue_removeMigrated (l : List String) :
    ∀ m : GoMap Bool, AllTrue m → AllTrue (removeMigrated m l) := by
  induction l with
  | nil => intro m h; exact h
  | cons a l ih => intro m h; exact ih _ (allTrue_erase h a)

theorem mem_removeMigrated (l : List String) :
    ∀ (m : GoMap Bool) (x : String),
      x ∈ (removeMigrated m l).keys ↔ x ∈ m.keys ∧ x ∉ l := by
  induction l with
  | nil => intro m x; simp [removeMigrated]
  | cons a l ih =>
    intro m x
    have hk : x ∈ (m.erase a).keys ↔ x ≠ a ∧ x ∈ m.keys := AList.mem_erase
    rw [removeMigrated, ih, hk, List.mem_cons, not_or]
    tauto

/-! ## One pass of the loop -/

theorem index_eq_decide {m : GoMap Bool} (h : AllTrue m) (k : String) :
    index m k = decide (k ∈ m.keys) := by
  rw [Bool.eq_iff_iff, index_eq_true_iff h]
  simp

theorem hasDependency_eq {m : GoMap Bool} (h : AllTrue m) (deps : List String) :
    hasDependency m deps = deps.any fun d => decide (d ∈ m.keys) := by
  induction deps with
  | nil => rfl
  | cons d ds ih =>
    rw [hasDependency, ih, List.any_cons, index_eq_decide h]
    by_cases hd : d ∈ m.keys <;> simp [hd]

/-- The result of the inner loop does not depend on the order in which the
dependency keys are visited. -/
theorem hasDependency_perm (m : GoMap Bool) {deps deps' : List String}
    (hp : deps.Perm deps') : hasDependency m deps = hasDependency m deps' := by
  induction hp with
  | nil => rfl
  | cons x _ ih => simp [hasDependency, ih]
  | swap x y l =>
    simp only [hasDependency]
    cases index m x <;> cases index m y <;> simp
  | trans _ _ ih₁ ih₂ => exact ih₁.trans ih₂

theorem collectWave_ok (tables : GoMap (Option Table)) (rem : GoMap Bool) :
    ∀ (visit acc out : List String), collectWave tables rem visit acc = .ok out →
      out = acc ++ visit.filter (fun t => !hasDependency rem (depsOf tables t)) ∧
        ∀ t ∈ visit, ∃ tb, tables.lookup t = some (some tb) := by
  intro visit
  induction visit with
  | nil =>
    intro acc out h
    simp only [collectWave, Except.ok.injEq] at h
    simp [h]
  | cons a visit ih =>
    intro acc out h
    cases hl : tables.lookup a with
    | none => simp [collectWave, hl] at h
    | some v =>
      cases v with
      | none => simp [collectWave, hl] at h
      | some tb =>
        have hd : depsOf tables a = dependencyKeys tb := by simp [depsOf, hl]
        by_cases hdep : hasDependency rem (dependencyKeys tb) = true
        · simp only [collectWave, hl, hdep, if_true] at h
          obtain ⟨h1, h2⟩ := ih acc out h
          refine ⟨?_, ?_⟩
          · rw [h1, List.filter_cons, hd, hdep]; simp
          · intro t ht
            rcases List.mem_cons.mp ht with rfl | ht
            · exact ⟨tb, hl⟩
            · exact h2 t ht
        · simp only [collectWave, hl, hdep] at h
          obtain ⟨h1, h2⟩ := ih (acc ++ [a]) out h
          have hdep' : hasDependency rem (dependencyKeys tb) = false := by simpa using hdep
          refine ⟨?_, ?_⟩
          · rw [h1, List.filter_cons, hd, hdep']; simp
          · intro t ht
            rcases List.mem_cons.mp ht with rfl | ht
            · exact ⟨tb, hl⟩
            · exact h2 t ht

theorem collectWave_total (tables : GoMap (Option Table)) (rem : GoMap Bool) :
    ∀ (visit acc : List String), (∀ t ∈ visit, ∃ tb, tables.lookup t = some (some tb)) →
      ∃ out, collectWave tables rem visit acc = .ok out := by
  intro visit
  induction visit with
  | nil => intro acc _; exact ⟨acc, rfl⟩
  | cons a visit ih =>
    intro acc h
    obtain ⟨tb, hl⟩ := h a (List.mem_cons_self a visit)
    have h' : ∀ t ∈ visit, ∃ tb, tables.lookup t = some (some tb) :=
      fun t ht => h t (List.mem_cons_of_mem a ht)
    by_cases hdep : hasDependency rem (dependencyKeys tb) = true
    · obtain ⟨out, ho⟩ := ih acc h'
      exact ⟨out, by simp only [collectWave, hl, hdep, if_true]; exact ho⟩
    · obtain ⟨out, ho⟩ := ih (acc ++ [a]) h'
      exact ⟨out, by simp only [collectWave, hl, hdep]; exact ho⟩

theorem collectWave_error (tables : GoMap (Option Table)) (rem : GoMap Bool) :
    ∀ (visit acc : List String) (e : Fault), collectWave tables rem visit acc = .error e →
      e = .nilDeref := by
  intro visit
  induction visit with
  | nil => intro acc e h; simp [collectWave] at h
  | cons a visit ih =>
    intro acc e h
    cases hl : tables.lookup a with
    | none => simp only [collectWave, hl, Except.error.injEq] at h; exact h.symm
    | some v =>
      cases v with
      | none => simp only [collectWave, hl, Except.error.injEq] at h; exact h.symm
      | some tb =>
        by_cases hdep : hasDependency rem (dependencyKeys tb) = true
        · simp only [collectWave, hl, hdep, if_true] at h
          exact ih _ e h
        · simp only [collectWave, hl, hdep] at h
          exact ih _ e h

theorem ready_eq_true_iff (tables : GoMap (Option Table)) (R : List String) (t : String) :
    ready tables R t = true ↔ ∀ d ∈ depsOf tables t, d ∉ R := by
  simp [ready]

theorem ready_eq_false_iff (tables : GoMap (Option Table)) (R : List String) (t : String) :
    ready tables R t = false ↔ ∃ d ∈ depsOf tables t, d ∈ R := by
  simp [ready]

theorem ready_congr (tables : GoMap (Option Table)) {R R' : List String}
    (h : ∀ x, x ∈ R ↔ x ∈ R') (t : String) : ready tables R t = ready tables R' t := by
  rw [Bool.eq_iff_iff, ready_eq_true_iff, ready_eq_true_iff]
  exact ⟨fun hr d hd hR => hr d hd ((h d).mpr hR), fun hr d hd hR => hr d hd ((h d).mp hR)⟩

/-- The pieces of a pass that ends normally. -/
theorem waveIteration_shape (ord : RangeOrder) (tables : GoMap (Option Table))
    (s s' : LoopState) (h : waveIteration ord tables s = .ok s') :
    ∃ collected,
      collectWave tables s.remainingTables
        (ord.order (2 * s.waveNum) s.remainingTables.keys) [] = .ok collected ∧
      s' = { remainingTables := removeMigrated s.remainingTables
               (breakCycle (ord.order (2 * s.waveNum + 1) s.remainingTables.keys) collected)
             waveNum := s.waveNum + 1
             waves := s.waves ++
               [{ Tables := breakCycle (ord.order (2 * s.waveNum + 1) s.remainingTables.keys)
                    collected
                  Number := s.waveNum }] } := by
  unfold waveIteration at h
  cases hc : collectWave tables s.remainingTables
      (ord.order (2 * s.waveNum) s.remainingTables.keys) [] with
  | error e => rw [hc] at h; simp at h
  | ok collected =>
    rw [hc] at h
    simp only [Except.ok.injEq] at h
    exact ⟨collected, rfl, h.symm⟩

theorem breakCycle_ne_nil {visit collected : List String} (hv : visit ≠ []) :
    breakCycle visit collected ≠ [] := by
  unfold breakCycle
  by_cases hc : collected.length = 0
  · rw [if_pos hc]
    cases visit with
    | nil => exact absurd rfl hv
    | cons t _ => simp
  · rw [if_neg hc]
    intro h
    exact hc (by rw [h]; rfl)

theorem breakCycle_subset {visit collected R : List String}
    (hv : ∀ x ∈ visit, x ∈ R) (hc : ∀ x ∈ collected, x ∈ R) :
    ∀ x ∈ breakCycle visit collected, x ∈ R := by
  unfold breakCycle
  by_cases hl : collected.length = 0
  · rw [if_pos hl]
    cases visit with
    | nil => exact hc
    | cons t _ =>
      intro x hx
      rcases List.mem_append.mp hx with hx | hx
      · exact hc x hx
      · rw [List.mem_singleton] at hx
        subst hx
        exact hv x (List.mem_cons_self _ _)
  · rw [if_neg hl]
    exact hc

/-- The wave of a pass is not empty and holds names of `remainingTables` only. -/
theorem waveIteration_wave (ord : RangeOrder) (tables : GoMap (Option Table))
    (s s' : LoopState) (hne : s.remainingTables.keys ≠ [])
    (h : waveIteration ord tables s = .ok s') :
    ∃ cw, cw ≠ [] ∧ (∀ x ∈ cw, x ∈ s.remainingTables.keys) ∧
      s'.remainingTables = removeMigrated s.remainingTables cw ∧
      s'.waveNum = s.waveNum + 1 ∧
      s'.waves = s.waves ++ [{ Tables := cw, Number := s.waveNum }] := by
  obtain ⟨collected, hc, hs⟩ := waveIteration_shape ord tables s s' h
  obtain ⟨hcol, -⟩ := collectWave_ok tables _ _ _ _ hc
  refine ⟨_, ?_, ?_, by rw [hs], by rw [hs], by rw [hs]⟩
  · apply breakCycle_ne_nil
    intro h0
    have hp := ord.perm (2 * s.waveNum + 1) s.remainingTables.keys
    rw [h0] at hp
    exact hne hp.nil_eq.symm
  · apply breakCycle_subset
    · intro x hx
      exact (ord.perm _ _).mem_iff.mp hx
    · intro x hx
      rw [hcol, List.nil_append] at hx
      exact (ord.perm _ _).mem_iff.mp (List.mem_of_mem_filter hx)

/-- Every pass removes at least one name from `remainingTables`. -/
theorem waveIteration_decreases (ord : RangeOrder) (tables : GoMap (Option Table))
    (s s' : LoopState) (hne : s.remainingTables.keys ≠ [])
    (h : waveIteration ord tables s = .ok s') :
    s'.remainingTables.keys.length < s.remainingTables.keys.length ∧
      ∀ x ∈ s'.remainingTables.keys, x ∈ s.remainingTables.keys := by
  obtain ⟨cw, hcw, hsub, hrem, -, -⟩ := waveIteration_wave ord tables s s' hne h
  obtain ⟨x, hx⟩ := List.exists_mem_of_ne_nil cw hcw
  have hmem : ∀ y, y ∈ s'.remainingTables.keys ↔ y ∈ s.remainingTables.keys ∧ y ∉ cw := by
    intro y; rw [hrem]; exact mem_removeMigrated cw _ y
  refine ⟨?_, fun y hy => ((hmem y).mp hy).1⟩
  have hsubset : s'.remainingTables.keys ⊆ s.remainingTables.keys.erase x := by
    intro y hy
    obtain ⟨hy1, hy2⟩ := (hmem y).mp hy
    have hyx : y ≠ x := fun hyx => hy2 (hyx ▸ hx)
    exact (List.mem_erase_of_ne hyx).mpr hy1
  have hle := (List.subperm_of_subset s'.remainingTables.keys_nodup hsubset).length_le
  rw [List.length_erase_of_mem (hsub x hx)] at hle
  have hpos : 0 < s.remainingTables.keys.length := List.length_pos.mpr hne
  omega

theorem breakCycle_of_ne_nil (visit : List String) {collected : List String}
    (h : collected ≠ []) : breakCycle visit collected = collected := by
  unfold breakCycle
  rw [if_neg]
  intro hl
  exact h (List.length_eq_zero.mp hl)

/-- A pass extends the plan of the state it reaches to a plan of the state it leaves. -/
theorem waveIteration_plan (ord : RangeOrder) (tables : GoMap (Option Table))
    (s s' : LoopState) (hT : AllTrue s.remainingTables)
    (hne : s.remainingTables.keys ≠ []) (h : waveIteration ord tables s = .ok s') :
    AllTrue s'.remainingTables ∧ s'.waveNum = s.waveNum + 1 ∧
      ∃ w, s'.waves = s.waves ++ [w] ∧
        ∀ ws, Plan tables s'.remainingTables.keys (s.waveNum + 1) ws →
          Plan tables s.remainingTables.keys s.waveNum (w :: ws) := by
  obtain ⟨collected, hc, hs⟩ := waveIteration_shape ord tables s s' h
  obtain ⟨hcol, -⟩ := collectWave_ok tables _ _ _ _ hc
  have hf : (fun t => !hasDependency s.remainingTables (depsOf tables t)) =
      ready tables s.remainingTables.keys := by
    funext t; rw [hasDependency_eq hT]; rfl
  rw [hf, List.nil_append] at hcol
  have hp1 := ord.perm (2 * s.waveNum) s.remainingTables.keys
  have hp2 := ord.perm (2 * s.waveNum + 1) s.remainingTables.keys
  subst hs
  refine ⟨allTrue_removeMigrated _ _ hT, rfl, _, rfl, ?_⟩
  intro ws hws
  by_cases hcn : collected = []
  · -- no table is ready: the first key of a fresh range is taken
    cases hV : ord.order (2 * s.waveNum + 1) s.remainingTables.keys with
    | nil => rw [hV] at hp2; exact absurd hp2.nil_eq.symm hne
    | cons t rest =>
      have hbc : breakCycle (t :: rest) collected = [t] := by rw [hcn]; rfl
      rw [hV, hbc] at hws
      rw [hbc]
      have ht : t ∈ s.remainingTables.keys :=
        hp2.mem_iff.mp (by rw [hV]; exact List.mem_cons_self _ _)
      refine Plan.forced t ?_ ht rfl rfl (AList.keys_nodup _) ?_ hws
      · intro x hx
        rw [hcn] at hcol
        have := List.filter_eq_nil_iff.mp hcol.symm x (hp1.mem_iff.mpr hx)
        simpa using this
      · intro x
        exact mem_removeMigrated [t] _ x
  · rw [breakCycle_of_ne_nil _ hcn] at hws ⊢
    refine Plan.layer rfl ?_ hcn ?_ (AList.keys_nodup _) ?_ hws
    · show collected.Nodup
      rw [hcol]
      exact ((hp1.nodup_iff).mpr (AList.keys_nodup _)).filter _
    · intro t
      show t ∈ collected ↔ _
      rw [hcol, List.mem_filter, hp1.mem_iff]
    · intro x
      exact mem_removeMigrated collected _ x

/-- A normal end of the loop returns the waves so far followed by a plan of the
names that were left. -/
theorem wavesLoop_plan (ord : RangeOrder) (tables : GoMap (Option Table)) :
    ∀ (fuel : Nat) (s : LoopState) (out : List Wave), AllTrue s.remainingTables →
      wavesLoop ord tables fuel s = .ok out →
      ∃ ws, out = s.waves ++ ws ∧ Plan tables s.remainingTables.keys s.waveNum ws := by
  intro fuel
  induction fuel with
  | zero =>
    intro s out _ h
    by_cases hlen : s.remainingTables.keys.length > 0
    · simp [wavesLoop, hlen] at h
    · simp only [wavesLoop, if_neg hlen, Except.ok.injEq] at h
      have hnil : s.remainingTables.keys = [] := List.length_eq_zero.mp (by omega)
      exact ⟨[], by simp [h], by rw [hnil]; exact Plan.done _⟩
  | succ fuel ih =>
    intro s out hT h
    by_cases hlen : s.remainingTables.keys.length > 0
    · simp only [wavesLoop, if_pos hlen] at h
      cases hit : waveIteration ord tables s with
      | error e => rw [hit] at h; simp at h
      | ok s' =>
        rw [hit] at h
        have hne : s.remainingTables.keys ≠ [] := List.length_pos.mp hlen
        obtain ⟨hT', hn, w, hw, hplan⟩ := waveIteration_plan ord tables s s' hT hne hit
        obtain ⟨ws, hout, hws⟩ := ih s' out hT' h
        rw [hn] at hws
        exact ⟨w :: ws, by rw [hout, hw]; simp, hplan ws hws⟩
    · simp only [wavesLoop, if_neg hlen, Except.ok.injEq] at h
      have hnil : s.remainingTables.keys = [] := List.length_eq_zero.mp (by omega)
      exact ⟨[], by simp [h], by rw [hnil]; exact Plan.done _⟩

/-- With one unit of fuel for each remaining name the loop does not run out of fuel. -/
theorem wavesLoop_fuel (ord : RangeOrder) (tables : GoMap (Option Table)) :
    ∀ (fuel : Nat) (s : LoopState), s.remainingTables.keys.length ≤ fuel →
      wavesLoop ord tables fuel s ≠ .error .outOfFuel := by
  intro fuel
  induction fuel with
  | zero =>
    intro s hle
    have hlen : ¬ s.remainingTables.keys.length > 0 := by omega
    simp [wavesLoop, hlen]
  | succ fuel ih =>
    intro s hle
    by_cases hlen : s.remainingTables.keys.length > 0
    · simp only [wavesLoop, if_pos hlen]
      cases hit : waveIteration ord tables s with
      | error e =>
        unfold waveIteration at hit
        cases hc : collectWave tables s.remainingTables
            (ord.order (2 * s.waveNum) s.remainingTables.keys) [] with
        | error e' =>
          rw [hc] at hit
          simp only [Except.error.injEq] at hit
          have := collectWave_error tables _ _ _ _ hc
          subst this
          subst hit
          simp
        | ok c => rw [hc] at hit; simp at hit
      | ok s' =>
        have hne : s.remainingTables.keys ≠ [] := List.length_pos.mp hlen
        have hdec := (waveIteration_decreases ord tables s s' hne hit).1
        exact ih s' (by omega)
    · simp [wavesLoop, hlen]

/-- On a map without nil pointers the loop ends normally once the fuel covers
the remaining names. -/
theorem nonNil_lookup {tables : GoMap (Option Table)} (hN : NonNil tables)
    (name : String) (h : name ∈ tables.keys) : ∃ t, tables.lookup name = some (some t) := by
  cases hl : tables.lookup name with
  | none => exact absurd h (AList.lookup_eq_none.mp hl)
  | some v =>
    cases v with
    | none => exact absurd hl (hN name h)
    | some t => exact ⟨t, rfl⟩

theorem wavesLoop_total (ord : RangeOrder) (tables : GoMap (Option Table))
    (hN : NonNil tables) :
    ∀ (fuel : Nat) (s : LoopState), (∀ x ∈ s.remainingTables.keys, x ∈ tables.keys) →
      s.remainingTables.keys.length ≤ fuel →
      ∃ out, wavesLoop ord tables fuel s = .ok out := by
  intro fuel
  induction fuel with
  | zero =>
    intro s _ hle
    have hlen : ¬ s.remainingTables.keys.length > 0 := by omega
    exact ⟨s.waves, by simp [wavesLoop, hlen]⟩
  | succ fuel ih =>
    intro s hsub hle
    by_cases hlen : s.remainingTables.keys.length > 0
    · have hne : s.remainingTables.keys ≠ [] := List.length_pos.mp hlen
      obtain ⟨collected, hc⟩ := collectWave_total tables s.remainingTables
        (ord.order (2 * s.waveNum) s.remainingTables.keys) []
        (fun t ht => nonNil_lookup hN t (hsub t ((ord.perm _ _).mem_iff.mp ht)))
      have hit : ∃ s', waveIteration ord tables s = .ok s' := by
        unfold waveIteration
        rw [hc]
        exact ⟨_, rfl⟩
      obtain ⟨s', hit⟩ := hit
      obtain ⟨hdec, hsub'⟩ := waveIteration_decreases ord tables s s' hne hit
      obtain ⟨out, hout⟩ := ih s' (fun x hx => hsub x (hsub' x hx)) (by omega)
      exact ⟨out, by simp only [wavesLoop, if_pos hlen, hit]; exact hout⟩
    · exact ⟨s.waves, by simp [wavesLoop, hlen]⟩

/-! ## Properties of a plan -/

theorem split_perm {R W R' : List String} (hW : W.Nodup) (hR' : R'.Nodup) (hR : R.Nodup)
    (hsub : ∀ x ∈ W, x ∈ R) (hmem : ∀ x, x ∈ R' ↔ x ∈ R ∧ x ∉ W) : (W ++ R').Perm R := by
  have hnd : (W ++ R').Nodup :=
    List.nodup_append.mpr ⟨hW, hR', fun x hx hx' => ((hmem x).mp hx').2 hx⟩
  refine (List.perm_ext_iff_of_nodup hnd hR).mpr fun x => ?_
  rw [List.mem_append, hmem]
  constructor
  · rintro (h | ⟨h, -⟩)
    · exact hsub x h
    · exact h
  · intro h
    by_cases hx : x ∈ W
    · exact Or.inl hx
    · exact Or.inr ⟨h, hx⟩

theorem mem_placed {ws : List Wave} {x : String} :
    x ∈ placed ws ↔ ∃ w ∈ ws, x ∈ w.Tables := by
  induction ws with
  | nil => simp [placed]
  | cons w ws ih => simp [placed, ih]

theorem placed_append (xs ys : List Wave) : placed (xs ++ ys) = placed xs ++ placed ys := by
  induction xs with
  | nil => rfl
  | cons w xs ih => simp [placed, ih]

/-- The waves of a plan hold every unplaced name exactly once. -/
theorem plan_perm {tables : GoMap (Option Table)} {R : List String} {n : Nat}
    {ws : List Wave} (h : Plan tables R n ws) : R.Nodup → (placed ws).Perm R := by
  induction h with
  | done n => intro _; exact List.Perm.refl _
  | @layer R R' n w ws _ hnd _ hmem hR' hrem _ ih =>
    intro hR
    have hsub : ∀ x ∈ w.Tables, x ∈ R := fun x hx => ((hmem x).mp hx).1
    exact ((ih hR').append_left w.Tables).trans (split_perm hnd hR' hR hsub hrem)
  | @forced R R' n w ws t _ ht _ hw hR' hrem _ ih =>
    intro hR
    have hnd : w.Tables.Nodup := by rw [hw]; exact List.nodup_singleton t
    have hsub : ∀ x ∈ w.Tables, x ∈ R := by
      intro x hx
      rw [hw, List.mem_singleton] at hx
      exact hx ▸ ht
    exact ((ih hR').append_left w.Tables).trans (split_perm hnd hR' hR hsub hrem)

/-- No wave of a plan is empty. -/
theorem plan_nonempty {tables : GoMap (Option Table)} {R : List String} {n : Nat}
    {ws : List Wave} (h : Plan tables R n ws) : ∀ w ∈ ws, w.Tables ≠ [] := by
  induction h with
  | done n => intro w hw; simp at hw
  | @layer R R' n w ws _ _ hne _ _ _ _ ih =>
    intro w' hw'
    rcases List.mem_cons.mp hw' with rfl | hw'
    · exact hne
    · exact ih w' hw'
  | @forced R R' n w ws t _ _ _ hw _ _ _ ih =>
    intro w' hw'
    rcases List.mem_cons.mp hw' with rfl | hw'
    · rw [hw]; simp
    · exact ih w' hw'

theorem length_le_placed {ws : List Wave} (h : ∀ w ∈ ws, w.Tables ≠ []) :
    ws.length ≤ (placed ws).length := by
  induction ws with
  | nil => simp [placed]
  | cons w ws ih =>
    have h1 : 0 < w.Tables.length := List.length_pos.mpr (h w (List.mem_cons_self _ _))
    have h2 := ih fun w' hw' => h w' (List.mem_cons_of_mem _ hw')
    simp only [placed, List.length_cons, List.length_append]
    omega

/-- The waves of a plan are numbered consecutively. -/
theorem plan_numbers {tables : GoMap (Option Table)} {R : List String} {n : Nat}
    {ws : List Wave} (h : Plan tables R n ws) :
    ws.map Wave.Number = List.range' n ws.length := by
  induction h with
  | done n => rfl
  | @layer R R' n w ws hn _ _ _ _ _ _ ih =>
    simp [ih, hn, List.range'_succ]
  | @forced R R' n w ws t _ _ hn _ _ _ _ ih =>
    simp [ih, hn, List.range'_succ]

/-- The wave at each position of a plan is a layer or a cycle-breaking wave for
the names placed before it. -/
theorem plan_split {tables : GoMap (Option Table)} (K : List String) {R : List String}
    {n : Nat} {ws : List Wave} (h : Plan tables R n ws) :
    ∀ done0 : List String, (∀ x, x ∈ R ↔ x ∈ K ∧ x ∉ done0) →
      ∀ (pre : List Wave) (w : Wave) (post : List Wave), ws = pre ++ w :: post →
        w.Number = n + pre.length ∧ w.Tables.Nodup ∧
          (LayerOf tables K (done0 ++ placed pre) w ∨
            ForcedOf tables K (done0 ++ placed pre) w) := by
  induction h with
  | done n =>
    intro _ _ pre w post hws
    simp at hws
  | @layer R R' n w0 ws0 hn hnd hne hmem _ hrem _ ih =>
    intro done0 hK pre w post hws
    cases pre with
    | nil =>
      simp only [List.nil_append, List.cons.injEq] at hws
      obtain ⟨rfl, -⟩ := hws
      refine ⟨by simpa using hn, hnd, Or.inl ⟨hne, fun t => ?_⟩⟩
      rw [hmem, ready_eq_true_iff, hK]
      simp only [placed, List.append_nil]
      constructor
      · rintro ⟨h1, h2⟩
        refine ⟨h1, fun d hd hdK => ?_⟩
        by_contra hdd
        exact h2 d hd ((hK d).mpr ⟨hdK, hdd⟩)
      · rintro ⟨h1, h2⟩
        exact ⟨h1, fun d hd hdR => ((hK d).mp hdR).2 (h2 d hd ((hK d).mp hdR).1)⟩
    | cons p pre' =>
      simp only [List.cons_append, List.cons.injEq] at hws
      obtain ⟨rfl, hws⟩ := hws
      have hK' : ∀ x, x ∈ R' ↔ x ∈ K ∧ x ∉ done0 ++ w0.Tables := by
        intro x
        rw [hrem, hK, List.mem_append, not_or, and_assoc]
      obtain ⟨h1, h2, h3⟩ := ih (done0 ++ w0.Tables) hK' pre' w post hws
      refine ⟨by rw [h1, List.length_cons]; omega, h2, ?_⟩
      simpa only [placed, List.append_assoc] using h3
  | @forced R R' n w0 ws0 t hall ht hn hw _ hrem _ ih =>
    intro done0 hK pre w post hws
    cases pre with
    | nil =>
      simp only [List.nil_append, List.cons.injEq] at hws
      obtain ⟨rfl, -⟩ := hws
      refine ⟨by simpa using hn, by rw [hw]; exact List.nodup_singleton t, Or.inr ⟨?_, ?_⟩⟩
      · intro x hxK hxd
        simp only [placed, List.append_nil] at hxd
        obtain ⟨d, hd, hdR⟩ :=
          (ready_eq_false_iff tables R x).mp (hall x ((hK x).mpr ⟨hxK, hxd⟩))
        exact ⟨d, hd, by simpa only [placed, List.append_nil] using (hK d).mp hdR⟩
      · exact ⟨t, ((hK t).mp ht).1, by simpa only [placed, List.append_nil] using ((hK t).mp ht).2, hw⟩
    | cons p pre' =>
      simp only [List.cons_append, List.cons.injEq] at hws
      obtain ⟨rfl, hws⟩ := hws
      have hK' : ∀ x, x ∈ R' ↔ x ∈ K ∧ x ∉ done0 ++ w0.Tables := by
        intro x
        rw [hrem, hK, List.mem_append, not_or, and_assoc]
      obtain ⟨h1, h2, h3⟩ := ih (done0 ++ w0.Tables) hK' pre' w post hws
      refine ⟨by rw [h1, List.length_cons]; omega, h2, ?_⟩
      simpa only [placed, List.append_assoc] using h3

/-! ## The whole function -/

theorem initRemaining_keys (ord : RangeOrder) (tables : GoMap (Option Table)) :
    (initRemaining (ord.order 0 tables.keys) ∅).keys.Perm tables.keys := by
  refine (List.perm_ext_iff_of_nodup (AList.keys_nodup _) tables.keys_nodup).mpr fun x => ?_
  rw [mem_initRemaining, (ord.perm 0 tables.keys).mem_iff]
  simp

theorem groupTablesIntoWaves_plan (ord : RangeOrder) (fuel : Nat)
    (tables : GoMap (Option Table)) (ws : List Wave)
    (h : groupTablesIntoWaves ord fuel tables = .ok ws) :
    ∃ K0 : List String, K0.Nodup ∧ K0.Perm tables.keys ∧ Plan tables K0 1 ws := by
  obtain ⟨ws', hout, hplan⟩ := wavesLoop_plan ord tables fuel _ ws
    (allTrue_initRemaining _ _ allTrue_empty) h
  simp only [List.nil_append] at hout
  subst hout
  exact ⟨_, AList.keys_nodup _, initRemaining_keys ord tables, hplan⟩

theorem groupTablesIntoWaves_perm (ord : RangeOrder) (fuel : Nat)
    (tables : GoMap (Option Table)) (ws : List Wave)
    (h : groupTablesIntoWaves ord fuel tables = .ok ws) :
    (placed ws).Perm tables.keys := by
  obtain ⟨K0, hnd, hperm, hplan⟩ := groupTablesIntoWaves_plan ord fuel tables ws h
  exact (plan_perm hplan hnd).trans hperm

theorem groupTablesIntoWaves_split (ord : RangeOrder) (fuel : Nat)
    (tables : GoMap (Option Table)) (ws : List Wave)
    (h : groupTablesIntoWaves ord fuel tables = .ok ws)
    (pre : List Wave) (w : Wave) (post : List Wave) (hws : ws = pre ++ w :: post) :
    w.Number = 1 + pre.length ∧ w.Tables.Nodup ∧
      (LayerOf tables tables.keys (placed pre) w ∨
        ForcedOf tables tables.keys (placed pre) w) := by
  obtain ⟨K0, hnd, hperm, hplan⟩ := groupTablesIntoWaves_plan ord fuel tables ws h
  have hK : ∀ x, x ∈ K0 ↔ x ∈ tables.keys ∧ x ∉ ([] : List String) := by
    intro x; rw [hperm.mem_iff]; simp
  simpa using plan_split tables.keys hplan [] hK pre w post hws

theorem groupTablesIntoWaves_total (ord : RangeOrder) (tables : GoMap (Option Table))
    (hN : NonNil tables) (k : Nat) :
    ∃ ws, groupTablesIntoWaves ord (tables.keys.length + k) tables = .ok ws := by
  have hperm := initRemaining_keys ord tables
  apply wavesLoop_total ord tables hN
  · intro x hx
    exact hperm.mem_iff.mp hx
  · show (initRemaining (ord.order 0 tables.keys) ∅).keys.length ≤ _
    rw [hperm.length_eq]
    omega

theorem groupTablesIntoWaves_fuel (ord : RangeOrder) (tables : GoMap (Option Table))
    (k : Nat) :
    groupTablesIntoWaves ord (tables.keys.length + k) tables ≠ .error .outOfFuel := by
  have hperm := initRemaining_keys ord tables
  apply wavesLoop_fuel ord tables
  show (initRemaining (ord.order 0 tables.keys) ∅).keys.length ≤ _
  rw [hperm.length_eq]
  omega

/-- In an acyclic graph every non-empty set of names holds a name without a
dependency in the set. -/
theorem acyclic_exists_ready {tables : GoMap (Option Table)} (hA : Acyclic tables)
    (U : List String) (hU : U ≠ []) : ∃ x ∈ U, ∀ d ∈ depsOf tables x, d ∉ U := by
  let r : {x // x ∈ U} → {x // x ∈ U} → Prop :=
    fun a b => Relation.TransGen (DependsOn tables) b.1 a.1
  haveI : IsTrans {x // x ∈ U} r := ⟨fun a b c hab hbc => Relation.TransGen.trans hbc hab⟩
  haveI : IsIrrefl {x // x ∈ U} r := ⟨fun a h => hA a.1 h⟩
  have wf : WellFounded r := Finite.wellFounded_of_trans_of_irrefl r
  obtain ⟨x0, hx0⟩ := List.exists_mem_of_ne_nil U hU
  obtain ⟨m, -, hm⟩ := wf.has_min Set.univ ⟨⟨x0, hx0⟩, trivial⟩
  exact ⟨m.1, m.2, fun d hd hdU => hm ⟨d, hdU⟩ trivial (Relation.TransGen.single hd)⟩

/-- In an acyclic graph no wave comes from cycle-breaking. -/
theorem acyclic_not_forced {tables : GoMap (Option Table)} (hA : Acyclic tables)
    (K done : List String) (w : Wave) : ¬ ForcedOf tables K done w := by
  rintro ⟨hall, t, htK, htd, -⟩
  have hU : K.filter (fun x => decide (x ∉ done)) ≠ [] := by
    intro h0
    have : t ∈ K.filter (fun x => decide (x ∉ done)) := by
      rw [List.mem_filter]; exact ⟨htK, by simpa using htd⟩
    rw [h0] at this
    simp at this
  obtain ⟨x, hx, hready⟩ := acyclic_exists_ready hA _ hU
  rw [List.mem_filter] at hx
  obtain ⟨d, hd, hdK, hdd⟩ := hall x hx.1 (by simpa using hx.2)
  exact hready d hd (by rw [List.mem_filter]; exact ⟨hdK, by simpa using hdd⟩)

theorem groupTablesIntoWaves_nodup (ord : RangeOrder) (fuel : Nat)
    (tables : GoMap (Option Table)) (pre : List Wave) (w : Wave) (post : List Wave)
    (h : groupTablesIntoWaves ord fuel tables = .ok (pre ++ w :: post)) :
    (placed pre ++ (w.Tables ++ placed post)).Nodup := by
  have hperm := groupTablesIntoWaves_perm ord fuel tables _ h
  have hnd := hperm.nodup_iff.mpr tables.keys_nodup
  simpa [placed_append, placed] using hnd

/-- The position of a wave in the result fixes its number. -/
theorem groupTablesIntoWaves_number_lt (ord : RangeOrder) (fuel : Nat)
    (tables : GoMap (Option Table)) (pre : List Wave) (w : Wave) (post : List Wave)
    (h : groupTablesIntoWaves ord fuel tables = .ok (pre ++ w :: post)) :
    ∀ w' ∈ pre, w'.Number < w.Number := by
  intro w' hw'
  obtain ⟨p1, p2, rfl⟩ := List.append_of_mem hw'
  have h1 := (groupTablesIntoWaves_split ord fuel tables _ h (p1 ++ w' :: p2) w post rfl).1
  have h2 := (groupTablesIntoWaves_split ord fuel tables _ h p1 w' (p2 ++ w :: post)
    (by simp)).1
  rw [h1, h2]
  simp only [List.length_append, List.length_cons]
  omega

theorem acyclic_of_rank (tables : GoMap (Option Table)) (rank : String → Nat)
    (h : ∀ t ∈ tables.keys, ∀ d ∈ depsOf tables t, rank d < rank t) : Acyclic tables := by
  have hstep : ∀ a b, DependsOn tables a b → rank b < rank a := by
    intro a b hab
    by_cases ha : a ∈ tables.keys
    · exact h a ha b hab
    · have hl : tables.lookup a = none := AList.lookup_eq_none.mpr ha
      simp [DependsOn, depsOf, hl] at hab
  have hlt : ∀ a b, Relation.TransGen (DependsOn tables) a b → rank b < rank a := by
    intro a b hab
    induction hab with
    | single h1 => exact hstep _ _ h1
    | tail _ h2 ih => exact lt_trans (hstep _ _ h2) ih
  intro t ht
  exact lt_irrefl _ (hlt t t ht)

theorem chainTables_acyclic : Acyclic chainTables :=
  acyclic_of_rank chainTables chainRank (by decide)

theorem flatTables_acyclic : Acyclic flatTables :=
  acyclic_of_rank flatTables (fun _ => 0) (by decide)

/-- A dependency among the keys lies in a wave before the wave of its table, and
every wave that holds it has a smaller number. -/
theorem groupTablesIntoWaves_earlier (ord : RangeOrder) (fuel : Nat)
    (tables : GoMap (Option Table)) (hA : Acyclic tables) (ws : List Wave)
    (hws : groupTablesIntoWaves ord fuel tables = .ok ws) (w : Wave) (hw : w ∈ ws)
    (t : String) (ht : t ∈ w.Tables) (d : String) (hd : d ∈ depsOf tables t)
    (hdK : d ∈ tables.keys) :
    (∃ w' ∈ ws, d ∈ w'.Tables ∧ w'.Number < w.Number) ∧
      ∀ w' ∈ ws, d ∈ w'.Tables → w'.Number < w.Number := by
  obtain ⟨pre, post, rfl⟩ := List.append_of_mem hw
  have hlayer : LayerOf tables tables.keys (placed pre) w := by
    rcases (groupTablesIntoWaves_split ord fuel tables _ hws pre w post rfl).2.2 with hl | hf
    · exact hl
    · exact absurd hf (acyclic_not_forced hA _ _ _)
  have hdpre : d ∈ placed pre := ((hlayer.2 t).mp ht).2 d hd hdK
  have hnd := groupTablesIntoWaves_nodup ord _ tables pre w post hws
  have hdisj := (List.nodup_append.mp hnd).2.2
  constructor
  · obtain ⟨w', hw', hdw'⟩ := mem_placed.mp hdpre
    exact ⟨w', List.mem_append_left _ hw', hdw',
      groupTablesIntoWaves_number_lt ord _ tables pre w post hws w' hw'⟩
  · intro w' hw' hdw'
    rcases List.mem_append.mp hw' with hpre | hrest
    · exact groupTablesIntoWaves_number_lt ord _ tables pre w post hws w' hpre
    · exfalso
      apply hdisj hdpre
      rcases List.mem_cons.mp hrest with rfl | hpost
      · exact List.mem_append_left _ hdw'
      · exact List.mem_append_right _ (mem_placed.mpr ⟨w', hpost, hdw'⟩)

/-- C1: on an acyclic graph without nil pointers `groupTablesIntoWaves` returns
waves in which every key `t` of `tables` is placed: `t` lies in a wave `w`, in no
other wave, and for every `d` in `t.Dependencies` that is a key of `tables` the
name `d` lies in a wave as well and every wave that holds `d` has a `Number`
strictly smaller than the `Number` of `w`. The same holds read from the waves:
whatever wave holds a table, the waves of its dependencies among the keys have
smaller numbers. -/
theorem groupTablesIntoWaves_dependencies_earlier (ord : RangeOrder)
    (tables : GoMap (Option Table)) (hA : Acyclic tables) (hN : NonNil tables) (k : Nat) :
    ∃ ws, groupTablesIntoWaves ord (tables.keys.length + k) tables = .ok ws ∧
      (∀ t ∈ tables.keys, ∃ w ∈ ws, t ∈ w.Tables ∧
        (∀ w2 ∈ ws, t ∈ w2.Tables → w2.Number = w.Number) ∧
        ∀ d ∈ depsOf tables t, d ∈ tables.keys →
          (∃ w' ∈ ws, d ∈ w'.Tables ∧ w'.Number < w.Number) ∧
            ∀ w' ∈ ws, d ∈ w'.Tables → w'.Number < w.Number) ∧
      (∀ w ∈ ws, ∀ t ∈ w.Tables, ∀ d ∈ depsOf tables t, d ∈ tables.keys →
        (∃ w' ∈ ws, d ∈ w'.Tables) ∧
          ∀ w' ∈ ws, d ∈ w'.Tables → w'.Number < w.Number) := by
  obtain ⟨ws, hws⟩ := groupTablesIntoWaves_total ord tables hN k
  refine ⟨ws, hws, ?_, ?_⟩
  · intro t ht
    have hperm := groupTablesIntoWaves_perm ord _ tables ws hws
    obtain ⟨w, hw, htw⟩ := mem_placed.mp (hperm.mem_iff.mpr ht)
    refine ⟨w, hw, htw, ?_, fun d hd hdK =>
      groupTablesIntoWaves_earlier ord _ tables hA ws hws w hw t htw d hd hdK⟩
    intro w2 hw2 htw2
    obtain ⟨pre, post, rfl⟩ := List.append_of_mem hw
    have hnd := groupTablesIntoWaves_nodup ord _ tables pre w post hws
    obtain ⟨-, hnd2, hdisj⟩ := List.nodup_append.mp hnd
    obtain ⟨-, -, hdisj2⟩ := List.nodup_append.mp hnd2
    rcases List.mem_append.mp hw2 with hpre | hrest
    · exact absurd (List.mem_append_left _ htw)
        (fun h => hdisj (mem_placed.mpr ⟨w2, hpre, htw2⟩) h)
    · rcases List.mem_cons.mp hrest with rfl | hpost
      · rfl
      · exact absurd (mem_placed.mpr ⟨w2, hpost, htw2⟩) (fun h => hdisj2 htw h)
  · intro w hw t ht d hd hdK
    obtain ⟨⟨w', hw', hdw', -⟩, hall⟩ :=
      groupTablesIntoWaves_earlier ord _ tables hA ws hws w hw t ht d hd hdK
    exact ⟨⟨w', hw', hdw'⟩, hall⟩

/-- The statement of C1 at scenario A with the stored iteration order: the three
tables are placed, `orders` after `users` and `line_items` after `orders`. -/
theorem groupTablesIntoWaves_dependencies_earlier_witness :
    Acyclic chainTables ∧ NonNil chainTables ∧
      groupTablesIntoWaves storedOrder (chainTables.keys.length + 0) chainTables =
        .ok [⟨["users"], 1⟩, ⟨["orders"], 2⟩, ⟨["line_items"], 3⟩] ∧
      ∃ ws, groupTablesIntoWaves storedOrder (chainTables.keys.length + 0) chainTables
          = .ok ws ∧
        (∀ t ∈ chainTables.keys, ∃ w ∈ ws, t ∈ w.Tables ∧
          (∀ w2 ∈ ws, t ∈ w2.Tables → w2.Number = w.Number) ∧
          ∀ d ∈ depsOf chainTables t, d ∈ chainTables.keys →
            (∃ w' ∈ ws, d ∈ w'.Tables ∧ w'.Number < w.Number) ∧
              ∀ w' ∈ ws, d ∈ w'.Tables → w'.Number < w.Number) ∧
        (∀ w ∈ ws, ∀ t ∈ w.Tables, ∀ d ∈ depsOf chainTables t, d ∈ chainTables.keys →
          (∃ w' ∈ ws, d ∈ w'.Tables) ∧
            ∀ w' ∈ ws, d ∈ w'.Tables → w'.Number < w.Number) :=
  ⟨chainTables_acyclic, by decide, by decide,
    groupTablesIntoWaves_dependencies_earlier storedOrder chainTables chainTables_acyclic
      (by decide) 0⟩

theorem layerOf_perm {tables : GoMap (Option Table)} {K done : List String} {w : Wave}
    (hK : K.Nodup) (hw : w.Tables.Nodup) (h : LayerOf tables K done w) :
    w.Tables.Perm (layerTables tables K done) := by
  refine (List.perm_ext_iff_of_nodup hw (hK.filter _)).mpr fun t => ?_
  rw [h.2 t, List.mem_filter]
  simp only [Bool.and_eq_true, decide_eq_true_eq, List.all_eq_true]
  tauto

theorem groupTablesIntoWaves_nonempty (ord : RangeOrder) (fuel : Nat)
    (tables : GoMap (Option Table)) (ws : List Wave)
    (h : groupTablesIntoWaves ord fuel tables = .ok ws) : ∀ w ∈ ws, w.Tables ≠ [] := by
  obtain ⟨K0, -, -, hplan⟩ := groupTablesIntoWaves_plan ord fuel tables ws h
  exact plan_nonempty hplan

/-- After the waves `pre` another wave follows as long as a key is unplaced. -/
theorem groupTablesIntoWaves_next (ord : RangeOrder) (fuel : Nat)
    (tables : GoMap (Option Table)) (pre rest : List Wave)
    (h : groupTablesIntoWaves ord fuel tables = .ok (pre ++ rest))
    (x : String) (hx : x ∈ tables.keys) (hxp : x ∉ placed pre) :
    ∃ w post, rest = w :: post := by
  cases rest with
  | nil =>
    have hperm := groupTablesIntoWaves_perm ord fuel tables _ h
    rw [List.append_nil] at hperm
    exact absurd (hperm.mem_iff.mpr hx) hxp
  | cons w post => exact ⟨w, post, rfl⟩

/-- After waves that hold every key no wave follows. -/
theorem groupTablesIntoWaves_end (ord : RangeOrder) (fuel : Nat)
    (tables : GoMap (Option Table)) (pre rest : List Wave)
    (h : groupTablesIntoWaves ord fuel tables = .ok (pre ++ rest))
    (hall : ∀ x ∈ tables.keys, x ∈ placed pre) : rest = [] := by
  cases rest with
  | nil => rfl
  | cons w post =>
    exfalso
    have hne := groupTablesIntoWaves_nonempty ord fuel tables _ h w (by simp)
    obtain ⟨x, hx⟩ := List.exists_mem_of_ne_nil _ hne
    have hperm := groupTablesIntoWaves_perm ord fuel tables _ h
    have hxk : x ∈ tables.keys :=
      hperm.mem_iff.mp (mem_placed.mpr ⟨w, by simp, hx⟩)
    have hnd := groupTablesIntoWaves_nodup ord fuel tables pre w post h
    exact (List.nodup_append.mp hnd).2.2 (hall x hxk) (List.mem_append_left _ hx)

/-- A nil pointer in the map makes the first pass of the loop panic. -/
theorem groupTablesIntoWaves_nil (ord : RangeOrder) (tables : GoMap (Option Table))
    (hN : ¬ NonNil tables) (fuel : Nat) :
    groupTablesIntoWaves ord (fuel + 1) tables = .error .nilDeref := by
  unfold NonNil at hN
  push_neg at hN
  obtain ⟨name, hname, hnil⟩ := hN
  have hperm := initRemaining_keys ord tables
  have hmem : name ∈ (initRemaining (ord.order 0 tables.keys) ∅).keys :=
    hperm.mem_iff.mpr hname
  have hlen : (initRemaining (ord.order 0 tables.keys) ∅).keys.length > 0 :=
    List.length_pos_of_mem hmem
  unfold groupTablesIntoWaves
  simp only [wavesLoop, if_pos hlen]
  have hit : waveIteration ord tables
      { remainingTables := initRemaining (ord.order 0 tables.keys) ∅, waveNum := 1, waves := [] }
      = .error .nilDeref := by
    unfold waveIteration
    cases hc : collectWave tables (initRemaining (ord.order 0 tables.keys) ∅)
        (ord.order (2 * 1) (initRemaining (ord.order 0 tables.keys) ∅).keys) [] with
    | error e => rw [collectWave_error tables _ _ _ _ hc]
    | ok collected =>
      exfalso
      obtain ⟨t, ht⟩ := (collectWave_ok tables _ _ _ _ hc).2 name
        ((ord.perm _ _).mem_iff.mpr hmem)
      rw [hnil] at ht
      simp at ht
  rw [hit]

/-- C2: whenever `groupTablesIntoWaves` returns, the returned waves partition the
key set of `tables`: the names of the waves, taken together, are the keys, each
once; every key lies in one wave, once, and in no wave before or after it; no
wave holds a name that is not a key. It does return on every map without nil
pointers, cyclic or not, and panics on a map with a nil pointer. -/
theorem groupTablesIntoWaves_partition (ord : RangeOrder) (tables : GoMap (Option Table)) :
    (∀ fuel ws, groupTablesIntoWaves ord fuel tables = .ok ws →
      (placed ws).Perm tables.keys ∧
      (∀ name ∈ tables.keys, ∃ pre w post, ws = pre ++ w :: post ∧
        w.Tables.count name = 1 ∧ name ∉ placed pre ∧ name ∉ placed post) ∧
      (∀ w ∈ ws, ∀ name ∈ w.Tables, name ∈ tables.keys)) ∧
    (NonNil tables →
      ∀ k, ∃ ws, groupTablesIntoWaves ord (tables.keys.length + k) tables = .ok ws) ∧
    (¬ NonNil tables →
      ∀ fuel, groupTablesIntoWaves ord (fuel + 1) tables = .error .nilDeref) := by
  refine ⟨fun fuel ws h => ?_, fun hN k => groupTablesIntoWaves_total ord tables hN k,
    fun hN fuel => groupTablesIntoWaves_nil ord tables hN fuel⟩
  have hperm := groupTablesIntoWaves_perm ord fuel tables ws h
  refine ⟨hperm, ?_, ?_⟩
  · intro name hname
    obtain ⟨w, hw, hnw⟩ := mem_placed.mp (hperm.mem_iff.mpr hname)
    obtain ⟨pre, post, rfl⟩ := List.append_of_mem hw
    have hnd := groupTablesIntoWaves_nodup ord fuel tables pre w post h
    obtain ⟨-, hnd2, hdisj⟩ := List.nodup_append.mp hnd
    obtain ⟨hndw, -, hdisj2⟩ := List.nodup_append.mp hnd2
    refine ⟨pre, w, post, rfl, List.count_eq_one_of_mem hndw hnw, ?_, ?_⟩
    · exact fun hp => hdisj hp (List.mem_append_left _ hnw)
    · exact fun hp => hdisj2 hnw hp
  · intro w hw name hname
    exact hperm.mem_iff.mp (mem_placed.mpr ⟨w, hw, hname⟩)

/-- C3: every pass of the loop that ends normally removes at least one name from
`remainingTables`; with one unit of fuel for each table the loop never runs out
of fuel, on any map, and on a map without nil pointers it returns; every returned
wave is non-empty and there are at most as many waves as tables; an empty map
gives zero waves. -/
theorem groupTablesIntoWaves_terminates (ord : RangeOrder) (tables : GoMap (Option Table)) :
    (∀ s s' : LoopState, s.remainingTables.keys ≠ [] →
      waveIteration ord tables s = .ok s' →
      s'.remainingTables.keys.length < s.remainingTables.keys.length) ∧
    (∀ k, groupTablesIntoWaves ord (tables.keys.length + k) tables ≠ .error .outOfFuel) ∧
    (NonNil tables →
      ∀ k, ∃ ws, groupTablesIntoWaves ord (tables.keys.length + k) tables = .ok ws) ∧
    (∀ fuel ws, groupTablesIntoWaves ord fuel tables = .ok ws →
      (∀ w ∈ ws, w.Tables ≠ []) ∧ ws.length ≤ tables.keys.length) ∧
    (tables.keys = [] → ∀ fuel, groupTablesIntoWaves ord fuel tables = .ok []) := by
  refine ⟨fun s s' hne h => (waveIteration_decreases ord tables s s' hne h).1,
    groupTablesIntoWaves_fuel ord tables,
    fun hN k => groupTablesIntoWaves_total ord tables hN k, fun fuel ws h => ?_,
    fun hk fuel => ?_⟩
  · have hne := groupTablesIntoWaves_nonempty ord fuel tables ws h
    have hperm := groupTablesIntoWaves_perm ord fuel tables ws h
    exact ⟨hne, by rw [← hperm.length_eq]; exact length_le_placed hne⟩
  · have hord : ord.order 0 tables.keys = [] := by
      rw [hk]
      exact List.perm_nil.mp (ord.perm 0 [])
    unfold groupTablesIntoWaves
    rw [hord]
    cases fuel <;> rfl

theorem wave_eq {w : Wave} {T : List String} {n : Nat} (hT : w.Tables = T)
    (hn : w.Number = n) : w = ⟨T, n⟩ := by
  cases w
  simp only at hT hn
  rw [hT, hn]

/-- The wave at a position is a singleton when it is a layer of one table or a
cycle-breaking wave that may only take one table. -/
theorem groupTablesIntoWaves_singleton (ord : RangeOrder) (fuel : Nat)
    (tables : GoMap (Option Table)) (pre : List Wave) (w : Wave) (post : List Wave)
    (h : groupTablesIntoWaves ord fuel tables = .ok (pre ++ w :: post)) (t : String)
    (hlayer : layerTables tables tables.keys (placed pre) = [t] ∨
      layerTables tables tables.keys (placed pre) = [])
    (hleft : ∀ x ∈ tables.keys, x ∉ placed pre → x = t) :
    w = ⟨[t], 1 + pre.length⟩ := by
  obtain ⟨hn, hnd, hstep⟩ := groupTablesIntoWaves_split ord fuel tables _ h pre w post rfl
  refine wave_eq ?_ hn
  rcases hstep with hl | hf
  · have hp := layerOf_perm tables.keys_nodup hnd hl
    rcases hlayer with h1 | h0
    · rw [h1] at hp
      exact List.perm_singleton.mp hp
    · rw [h0] at hp
      exact absurd hp.eq_nil hl.1
  · obtain ⟨-, t', ht'K, ht'd, hw⟩ := hf
    rw [hw, hleft t' ht'K ht'd]

theorem cycleTables_waves (ord : RangeOrder) (k : Nat) :
    groupTablesIntoWaves ord (2 + k) cycleTables = .ok [⟨["A"], 1⟩, ⟨["B"], 2⟩] ∨
      groupTablesIntoWaves ord (2 + k) cycleTables = .ok [⟨["B"], 1⟩, ⟨["A"], 2⟩] := by
  obtain ⟨ws, hws⟩ := groupTablesIntoWaves_total ord cycleTables (by decide) k
  have hlen : cycleTables.keys.length = 2 := by decide
  rw [hlen] at hws
  have hkeys : ∀ x ∈ cycleTables.keys, x = "B" ∨ x = "A" := by
    intro x hx
    have : cycleTables.keys = ["B", "A"] := by decide
    rw [this] at hx
    simpa using hx
  obtain ⟨w1, rest, rfl⟩ := groupTablesIntoWaves_next ord _ cycleTables [] ws hws "A"
    (by decide) (by decide)
  obtain ⟨hn1, hnd1, hstep1⟩ := groupTablesIntoWaves_split ord _ cycleTables _ hws [] w1 rest rfl
  have hforced : ForcedOf cycleTables cycleTables.keys (placed []) w1 := by
    rcases hstep1 with hl | hf
    · have hp := layerOf_perm cycleTables.keys_nodup hnd1 hl
      have h0 : layerTables cycleTables cycleTables.keys (placed []) = [] := by decide
      rw [h0] at hp
      exact absurd hp.eq_nil hl.1
    · exact hf
  obtain ⟨-, t, htK, -, hw1⟩ := hforced
  rcases hkeys t htK with rfl | rfl
  · -- the first range visits `B`
    have e1 : w1 = ⟨["B"], 1⟩ := wave_eq hw1 (by simpa using hn1)
    subst e1
    obtain ⟨w2, rest2, rfl⟩ := groupTablesIntoWaves_next ord _ cycleTables [⟨["B"], 1⟩] rest
      hws "A" (by decide) (by decide)
    have e2 := groupTablesIntoWaves_singleton ord _ cycleTables [⟨["B"], 1⟩] w2 rest2 hws "A"
      (by decide) (by decide)
    subst e2
    have e3 := groupTablesIntoWaves_end ord _ cycleTables [⟨["B"], 1⟩, ⟨["A"], 1 + 1⟩] rest2
      (by simpa using hws) (by decide)
    subst e3
    exact Or.inr hws
  · have e1 : w1 = ⟨["A"], 1⟩ := wave_eq hw1 (by simpa using hn1)
    subst e1
    obtain ⟨w2, rest2, rfl⟩ := groupTablesIntoWaves_next ord _ cycleTables [⟨["A"], 1⟩] rest
      hws "B" (by decide) (by decide)
    have e2 := groupTablesIntoWaves_singleton ord _ cycleTables [⟨["A"], 1⟩] w2 rest2 hws "B"
      (by decide) (by decide)
    subst e2
    have e3 := groupTablesIntoWaves_end ord _ cycleTables [⟨["A"], 1⟩, ⟨["B"], 1 + 1⟩] rest2
      (by simpa using hws) (by decide)
    subst e3
    exact Or.inl hws

theorem waveNumberOf_split (pre : List Wave) (w : Wave) (post : List Wave) (t : String)
    (ht : t ∈ w.Tables) (hpre : t ∉ placed pre) :
    waveNumberOf (pre ++ w :: post) t = w.Number := by
  induction pre with
  | nil => simp [waveNumberOf, List.find?_cons, ht]
  | cons p pre ih =>
    have hp : t ∉ p.Tables := fun h => hpre (by simp [placed, h])
    have hpre' : t ∉ placed pre := fun h => hpre (by simp [placed, h])
    have := ih hpre'
    simp only [waveNumberOf, List.cons_append, List.find?_cons, hp, decide_False] at this ⊢
    exact this

theorem foldr_max_le {l : List Nat} {k : Nat} (h : ∀ x ∈ l, x ≤ k) : l.foldr max 0 ≤ k := by
  induction l with
  | nil => simp
  | cons a l ih =>
    simp only [List.foldr_cons]
    exact max_le (h a (List.mem_cons_self _ _)) (ih fun x hx => h x (List.mem_cons_of_mem _ hx))

theorem le_foldr_max {l : List Nat} {k : Nat} (h : k ∈ l) : k ≤ l.foldr max 0 := by
  induction l with
  | nil => simp at h
  | cons a l ih =>
    simp only [List.foldr_cons]
    rcases List.mem_cons.mp h with rfl | h
    · exact le_max_left _ _
    · exact le_trans (ih h) (le_max_right _ _)

theorem foldr_max_eq {l : List Nat} {k : Nat} (hle : ∀ x ∈ l, x ≤ k) (hk : k = 0 ∨ k ∈ l) :
    l.foldr max 0 = k := by
  apply le_antisymm (foldr_max_le hle)
  rcases hk with rfl | hk
  · exact Nat.zero_le _
  · exact le_foldr_max hk

/-- On an acyclic graph the wave at each position is the layer of the names
placed before it. -/
theorem groupTablesIntoWaves_layer (ord : RangeOrder) (fuel : Nat)
    (tables : GoMap (Option Table)) (hA : Acyclic tables) (pre : List Wave) (w : Wave)
    (post : List Wave) (h : groupTablesIntoWaves ord fuel tables = .ok (pre ++ w :: post)) :
    LayerOf tables tables.keys (placed pre) w := by
  rcases (groupTablesIntoWaves_split ord fuel tables _ h pre w post rfl).2.2 with hl | hf
  · exact hl
  · exact absurd hf (acyclic_not_forced hA _ _ _)

/-- On an acyclic graph the wave number of a table is one more than the largest
wave number of its dependencies among the keys. -/
theorem groupTablesIntoWaves_waveNumber (ord : RangeOrder) (fuel : Nat)
    (tables : GoMap (Option Table)) (hA : Acyclic tables) (ws : List Wave)
    (h : groupTablesIntoWaves ord fuel tables = .ok ws) (t : String) (ht : t ∈ tables.keys) :
    waveNumberOf ws t =
      1 + (((depsOf tables t).filter fun d => decide (d ∈ tables.keys)).map
        (waveNumberOf ws)).foldr max 0 := by
  have hperm := groupTablesIntoWaves_perm ord fuel tables ws h
  obtain ⟨w, hw, htw⟩ := mem_placed.mp (hperm.mem_iff.mpr ht)
  obtain ⟨pre, post, rfl⟩ := List.append_of_mem hw
  have hnd := groupTablesIntoWaves_nodup ord fuel tables pre w post h
  have htpre : t ∉ placed pre :=
    fun hp => (List.nodup_append.mp hnd).2.2 hp (List.mem_append_left _ htw)
  have hn := (groupTablesIntoWaves_split ord fuel tables _ h pre w post rfl).1
  have hlayer := groupTablesIntoWaves_layer ord fuel tables hA pre w post h
  rw [waveNumberOf_split pre w post t htw htpre, hn]
  congr 1
  symm
  apply foldr_max_eq
  · intro x hx
    obtain ⟨d, hd, rfl⟩ := List.mem_map.mp hx
    rw [List.mem_filter] at hd
    have hdK : d ∈ tables.keys := by simpa using hd.2
    have hdpre : d ∈ placed pre := ((hlayer.2 t).mp htw).2 d hd.1 hdK
    obtain ⟨w', hw', hdw'⟩ := mem_placed.mp hdpre
    obtain ⟨p1, p2, rfl⟩ := List.append_of_mem hw'
    have h' : groupTablesIntoWaves ord fuel tables = .ok (p1 ++ w' :: (p2 ++ w :: post)) := by
      simpa using h
    have hnd' := groupTablesIntoWaves_nodup ord fuel tables p1 w' _ h'
    have hdp1 : d ∉ placed p1 :=
      fun hp => (List.nodup_append.mp hnd').2.2 hp (List.mem_append_left _ hdw')
    have hn' := (groupTablesIntoWaves_split ord fuel tables _ h' p1 w' _ rfl).1
    have : waveNumberOf (p1 ++ w' :: p2 ++ w :: post) d = w'.Number := by
      have := waveNumberOf_split p1 w' (p2 ++ w :: post) d hdw' hdp1
      simpa using this
    rw [this, hn']
    simp only [List.length_append, List.length_cons]
    omega
  · rcases List.eq_nil_or_concat pre with rfl | ⟨pre', wl, hpre⟩
    · exact Or.inl rfl
    · right
      rw [List.concat_eq_append] at hpre
      subst hpre
      have h' : groupTablesIntoWaves ord fuel tables = .ok (pre' ++ wl :: (w :: post)) := by
        simpa using h
      have hl := groupTablesIntoWaves_layer ord fuel tables hA pre' wl _ h'
      have hnl := (groupTablesIntoWaves_split ord fuel tables _ h' pre' wl _ rfl).1
      have htwl : t ∉ wl.Tables := fun hx => htpre (by simp [placed_append, placed, hx])
      have htpre' : t ∉ placed pre' := fun hx => htpre (by simp [placed_append, hx])
      have hnot : ¬ ∀ d ∈ depsOf tables t, d ∈ tables.keys → d ∈ placed pre' :=
        fun hall => htwl ((hl.2 t).mpr ⟨⟨ht, htpre'⟩, hall⟩)
      push_neg at hnot
      obtain ⟨d, hd, hdK, hdpre'⟩ := hnot
      have hdpre : d ∈ placed (pre' ++ [wl]) := ((hlayer.2 t).mp htw).2 d hd hdK
      have hdwl : d ∈ wl.Tables := by
        simp only [placed_append, placed, List.append_nil, List.mem_append] at hdpre
        exact hdpre.resolve_left hdpre'
      refine List.mem_map.mpr ⟨d, ?_, ?_⟩
      · rw [List.mem_filter]; exact ⟨hd, by simpa using hdK⟩
      · have := waveNumberOf_split pre' wl (w :: post) d hdwl hdpre'
        have e : pre' ++ [wl] ++ w :: post = pre' ++ wl :: w :: post := by simp
        rw [e, this, hnl]
        simp only [List.length_append, List.length_cons, List.length_nil]
        omega

/-- On an acyclic graph the wave at each position holds exactly the unplaced
tables whose dependencies among the keys are all placed. -/
theorem groupTablesIntoWaves_layer_perm (ord : RangeOrder) (fuel : Nat)
    (tables : GoMap (Option Table)) (hA : Acyclic tables) (pre : List Wave) (w : Wave)
    (post : List Wave) (h : groupTablesIntoWaves ord fuel tables = .ok (pre ++ w :: post)) :
    w.Number = 1 + pre.length ∧
      w.Tables.Perm (layerTables tables tables.keys (placed pre)) := by
  obtain ⟨hn, hnd, -⟩ := groupTablesIntoWaves_split ord fuel tables _ h pre w post rfl
  exact ⟨hn, layerOf_perm tables.keys_nodup hnd
    (groupTablesIntoWaves_layer ord fuel tables hA pre w post h)⟩

theorem flatTables_waves (ord : RangeOrder) (k : Nat) :
    ∃ T : List String, T.Perm ["a", "b"] ∧
      groupTablesIntoWaves ord (2 + k) flatTables = .ok [⟨T, 1⟩] := by
  obtain ⟨ws, hws⟩ := groupTablesIntoWaves_total ord flatTables (by decide) k
  have hlen : flatTables.keys.length = 2 := by decide
  rw [hlen] at hws
  obtain ⟨w1, rest, rfl⟩ := groupTablesIntoWaves_next ord _ flatTables [] ws hws "a"
    (by decide) (by decide)
  obtain ⟨hn, hp⟩ := groupTablesIntoWaves_layer_perm ord _ flatTables flatTables_acyclic
    [] w1 rest hws
  have hl : layerTables flatTables flatTables.keys (placed []) = ["b", "a"] := by decide
  rw [hl] at hp
  have hrest : rest = [] := by
    apply groupTablesIntoWaves_end ord _ flatTables [w1] rest hws
    intro x hx
    have hk : flatTables.keys = ["b", "a"] := by decide
    rw [hk] at hx
    simpa [placed] using hp.mem_iff.mpr hx
  subst hrest
  refine ⟨w1.Tables, hp.trans (List.Perm.swap _ _ _), ?_⟩
  have e : w1 = ⟨w1.Tables, 1⟩ := wave_eq rfl (by simpa using hn)
  rw [← e]
  exact hws

theorem chainTables_waves (ord : RangeOrder) (k : Nat) :
    groupTablesIntoWaves ord (3 + k) chainTables =
      .ok [⟨["users"], 1⟩, ⟨["orders"], 2⟩, ⟨["line_items"], 3⟩] := by
  obtain ⟨ws, hws⟩ := groupTablesIntoWaves_total ord chainTables (by decide) k
  have hlen : chainTables.keys.length = 3 := by decide
  rw [hlen] at hws
  obtain ⟨w1, r1, rfl⟩ := groupTablesIntoWaves_next ord _ chainTables [] ws hws "users"
    (by decide) (by decide)
  obtain ⟨hn1, hp1⟩ := groupTablesIntoWaves_layer_perm ord _ chainTables chainTables_acyclic
    [] w1 r1 hws
  have hl1 : layerTables chainTables chainTables.keys (placed []) = ["users"] := by decide
  rw [hl1] at hp1
  have e1 : w1 = ⟨["users"], 1⟩ := wave_eq (List.perm_singleton.mp hp1) (by simpa using hn1)
  subst e1
  obtain ⟨w2, r2, rfl⟩ := groupTablesIntoWaves_next ord _ chainTables [⟨["users"], 1⟩] r1
    hws "orders" (by decide) (by decide)
  obtain ⟨hn2, hp2⟩ := groupTablesIntoWaves_layer_perm ord _ chainTables chainTables_acyclic
    [⟨["users"], 1⟩] w2 r2 hws
  have hl2 : layerTables chainTables chainTables.keys (placed [⟨["users"], 1⟩]) = ["orders"] := by
    decide
  rw [hl2] at hp2
  have e2 : w2 = ⟨["orders"], 2⟩ := wave_eq (List.perm_singleton.mp hp2) (by simpa using hn2)
  subst e2
  obtain ⟨w3, r3, rfl⟩ := groupTablesIntoWaves_next ord _ chainTables
    [⟨["users"], 1⟩, ⟨["orders"], 2⟩] r2 (by simpa using hws) "line_items"
    (by decide) (by decide)
  have hws3 : groupTablesIntoWaves ord (3 + k) chainTables =
      .ok ([⟨["users"], 1⟩, ⟨["orders"], 2⟩] ++ w3 :: r3) := by simpa using hws
  obtain ⟨hn3, hp3⟩ := groupTablesIntoWaves_layer_perm ord _ chainTables chainTables_acyclic
    [⟨["users"], 1⟩, ⟨["orders"], 2⟩] w3 r3 hws3
  have hl3 : layerTables chainTables chainTables.keys
      (placed [⟨["users"], 1⟩, ⟨["orders"], 2⟩]) = ["line_items"] := by decide
  rw [hl3] at hp3
  have e3 : w3 = ⟨["line_items"], 3⟩ :=
    wave_eq (List.perm_singleton.mp hp3) (by simpa using hn3)
  subst e3
  have hend := groupTablesIntoWaves_end ord _ chainTables
    [⟨["users"], 1⟩, ⟨["orders"], 2⟩, ⟨["line_items"], 3⟩] r3 (by simpa using hws)
    (by decide)
  subst hend
  exact hws3

/-- C4: on an acyclic graph without nil pointers `groupTablesIntoWaves` returns,
the wave at each position holds exactly the tables, not placed in an earlier
wave, whose dependencies among the keys are all placed in earlier waves, and the
wave number of a table is one more than the largest wave number of its
dependencies among the keys (1 when it has none). Two tables without edges give
the single wave of both; the chain users, orders, line_items gives three waves
numbered 1, 2, 3. -/
theorem groupTablesIntoWaves_earliest (ord : RangeOrder) :
    (∀ tables : GoMap (Option Table), Acyclic tables → NonNil tables → ∀ k,
      ∃ ws, groupTablesIntoWaves ord (tables.keys.length + k) tables = .ok ws ∧
        (∀ pre w post, ws = pre ++ w :: post →
          w.Number = 1 + pre.length ∧
            w.Tables.Perm (layerTables tables tables.keys (placed pre))) ∧
        (∀ t ∈ tables.keys, waveNumberOf ws t =
          1 + (((depsOf tables t).filter fun d => decide (d ∈ tables.keys)).map
            (waveNumberOf ws)).foldr max 0)) ∧
    (∀ k, ∃ T : List String, T.Perm ["a", "b"] ∧
      groupTablesIntoWaves ord (2 + k) flatTables = .ok [⟨T, 1⟩]) ∧
    (∀ k, groupTablesIntoWaves ord (3 + k) chainTables =
      .ok [⟨["users"], 1⟩, ⟨["orders"], 2⟩, ⟨["line_items"], 3⟩]) := by
  refine ⟨fun tables hA hN k => ?_, flatTables_waves ord, chainTables_waves ord⟩
  obtain ⟨ws, hws⟩ := groupTablesIntoWaves_total ord tables hN k
  refine ⟨ws, hws, ?_, ?_⟩
  · intro pre w post hsplit
    subst hsplit
    exact groupTablesIntoWaves_layer_perm ord _ tables hA pre w post hws
  · intro t ht
    exact groupTablesIntoWaves_waveNumber ord _ tables hA ws hws t ht

/-- C5: in every result each wave either has, for each of its tables, all
dependencies among the keys in waves before it, with smaller numbers, or comes
from cycle-breaking and holds exactly one table. The two-table cycle gives two
singleton waves over `A` and `B`, and the table of the first wave depends on the
table of the second. -/
theorem groupTablesIntoWaves_cycle_breaking (ord : RangeOrder) :
    (∀ (tables : GoMap (Option Table)) (fuel : Nat) (ws : List Wave),
      groupTablesIntoWaves ord fuel tables = .ok ws →
      ∀ pre w post, ws = pre ++ w :: post →
        (∀ t ∈ w.Tables, ∀ d ∈ depsOf tables t, d ∈ tables.keys →
          ∃ w' ∈ pre, d ∈ w'.Tables ∧ w'.Number < w.Number) ∨
        (ForcedOf tables tables.keys (placed pre) w ∧ w.Tables.length = 1)) ∧
    (∀ k, groupTablesIntoWaves ord (2 + k) cycleTables = .ok [⟨["A"], 1⟩, ⟨["B"], 2⟩] ∨
      groupTablesIntoWaves ord (2 + k) cycleTables = .ok [⟨["B"], 1⟩, ⟨["A"], 2⟩]) ∧
    depsOf cycleTables "A" = ["B"] ∧ depsOf cycleTables "B" = ["A"] := by
  refine ⟨?_, cycleTables_waves ord, by decide, by decide⟩
  intro tables fuel ws hws pre w post hsplit
  subst hsplit
  rcases (groupTablesIntoWaves_split ord fuel tables _ hws pre w post rfl).2.2 with hl | hf
  · left
    intro t ht d hd hdK
    obtain ⟨w', hw', hdw'⟩ := mem_placed.mp (((hl.2 t).mp ht).2 d hd hdK)
    exact ⟨w', hw', hdw', groupTablesIntoWaves_number_lt ord fuel tables pre w post hws w' hw'⟩
  · right
    refine ⟨hf, ?_⟩
    obtain ⟨-, t, -, -, hw⟩ := hf
    rw [hw]
    rfl

/-! ## `getDependencies` with queries that succeed -/

theorem mem_keys_insert {V : Type} (m : GoMap V) (a x : String) (v : V) :
    x ∈ (m.insert a v).keys ↔ x = a ∨ x ∈ m.keys := AList.mem_insert m

theorem scanTables_spec (E : List String) :
    ∀ tables0 : GoMap (Option Table), ∃ tables,
      scanTables (E.map .ok) tables0 = .ok tables ∧
      (∀ x, x ∈ tables.keys ↔ x ∈ E ∨ x ∈ tables0.keys) ∧
      (∀ x ∈ E, tables.lookup x = some (some ⟨x, some ∅⟩)) ∧
      (∀ x, x ∉ E → tables.lookup x = tables0.lookup x) := by
  induction E with
  | nil => intro tables0; exact ⟨tables0, rfl, by simp, by simp, fun _ _ => rfl⟩
  | cons a E ih =>
    intro tables0
    obtain ⟨tables, hrun, hkeys, hlook, hrest⟩ :=
      ih (tables0.insert a (some { Name := a, Dependencies := some ∅ }))
    refine ⟨tables, by simpa [scanTables] using hrun, ?_, ?_, ?_⟩
    · intro x
      rw [hkeys, mem_keys_insert, List.mem_cons]
      tauto
    · intro x hx
      by_cases hxE : x ∈ E
      · exact hlook x hxE
      · have hxa : x = a := by
          rcases List.mem_cons.mp hx with h | h
          · exact h
          · exact absurd h hxE
        subst hxa
        rw [hrest x hxE, AList.lookup_insert]
    · intro x hx
      simp only [List.mem_cons, not_or] at hx
      rw [hrest x hx.2, AList.lookup_insert_ne hx.1]

theorem scanForeign_spec (E : List String) (tableName nm : String) (edges : List String) :
    ∀ (tables : GoMap (Option Table)) (deps : GoMap Bool),
      (∀ x, x ∈ tables.keys ↔ x ∈ E) →
      tables.lookup tableName = some (some ⟨nm, some deps⟩) →
      ∃ tables' deps', scanForeign tableName (edges.map .ok) tables = .ok tables' ∧
        (∀ x, x ∈ tables'.keys ↔ x ∈ E) ∧
        tables'.lookup tableName = some (some ⟨nm, some deps'⟩) ∧
        (∀ d, d ∈ deps'.keys ↔ d ∈ deps.keys ∨ (d ∈ edges ∧ d ∈ E)) ∧
        (AllTrue deps → AllTrue deps') ∧
        ∀ o, o ≠ tableName → tables'.lookup o = tables.lookup o := by
  induction edges with
  | nil =>
    intro tables deps hk hl
    exact ⟨tables, deps, rfl, hk, hl, by simp, id, fun _ _ => rfl⟩
  | cons f edges ih =>
    intro tables deps hk hl
    have htn : tableName ∈ tables.keys := by
      have : (tables.lookup tableName).isSome := by rw [hl]; rfl
      exact AList.lookup_isSome.mp this
    by_cases hf : (tables.lookup f).isSome = true
    · have hfE : f ∈ E := (hk f).mp (AList.lookup_isSome.mp hf)
      have hk1 : ∀ x, x ∈ (tables.insert tableName
          (some { Name := nm, Dependencies := some (deps.insert f true) })).keys ↔ x ∈ E := by
        intro x
        rw [mem_keys_insert, ← hk]
        constructor
        · rintro (h | h)
          · exact h ▸ htn
          · exact h
        · exact Or.inr
      obtain ⟨tables', deps', hrun, hk', hl', hd', hT', ho'⟩ :=
        ih _ (deps.insert f true) hk1 (AList.lookup_insert _)
      refine ⟨tables', deps', ?_, hk', hl', ?_, ?_, ?_⟩
      · simp only [List.map_cons, scanForeign, hf, if_true, hl]
        exact hrun
      · intro d
        rw [hd', mem_keys_insert, List.mem_cons]
        constructor
        · rintro ((h | h) | ⟨h1, h2⟩)
          · exact Or.inr ⟨Or.inl h, h ▸ hfE⟩
          · exact Or.inl h
          · exact Or.inr ⟨Or.inr h1, h2⟩
        · rintro (h | ⟨h1 | h1, h2⟩)
          · exact Or.inl (Or.inr h)
          · exact Or.inl (Or.inl h1)
          · exact Or.inr ⟨h1, h2⟩
      · intro hT
        exact hT' (allTrue_insert hT f)
      · intro o ho
        rw [ho' o ho, AList.lookup_insert_ne ho]
    · have hfE : f ∉ E := fun h => hf (AList.lookup_isSome.mpr ((hk f).mpr h))
      obtain ⟨tables', deps', hrun, hk', hl', hd', hT', ho'⟩ := ih tables deps hk hl
      refine ⟨tables', deps', ?_, hk', hl', ?_, hT', ho'⟩
      · simp only [List.map_cons, scanForeign, hf]
        exact hrun
      · intro d
        rw [hd', List.mem_cons]
        constructor
        · rintro (h | ⟨h1, h2⟩)
          · exact Or.inl h
          · exact Or.inr ⟨Or.inr h1, h2⟩
        · rintro (h | ⟨h1 | h1, h2⟩)
          · exact Or.inl h
          · exact absurd (h1 ▸ h2) hfE
          · exact Or.inr ⟨h1, h2⟩

theorem foreignLoop_spec (E : List String) (edgesOf : String → List String) :
    ∀ (visit : List String) (tables : GoMap (Option Table)) (P : String → Prop),
      (∀ x ∈ visit, x ∈ E) → Good E edgesOf tables P →
      ∃ tables', foreignLoop (successfulDb E edgesOf) visit tables = .ok tables' ∧
        Good E edgesOf tables' (fun name => P name ∨ name ∈ visit) := by
  intro visit
  induction visit with
  | nil =>
    intro tables P _ hG
    refine ⟨tables, rfl, hG.1, fun name hname => ?_⟩
    obtain ⟨deps, h1, h2, h3, h4⟩ := hG.2 name hname
    exact ⟨deps, h1, h2, h3, fun hP => h4 (by simpa using hP)⟩
  | cons a visit ih =>
    intro tables P hvis hG
    have haE : a ∈ E := hvis a (List.mem_cons_self _ _)
    obtain ⟨deps, hl, hT, hsub, -⟩ := hG.2 a haE
    obtain ⟨tables1, deps1, hrun, hk1, hl1, hd1, hT1, ho1⟩ :=
      scanForeign_spec E a a (edgesOf a) tables deps hG.1 hl
    have hG1 : Good E edgesOf tables1 (fun name => P name ∨ name = a) := by
      refine ⟨hk1, fun name hname => ?_⟩
      by_cases hna : name = a
      · subst hna
        refine ⟨deps1, hl1, hT1 hT, ?_, ?_⟩
        · intro d hd
          rcases (hd1 d).mp hd with h | h
          · exact hsub d h
          · exact h
        · intro _ d hd hdE
          exact (hd1 d).mpr (Or.inr ⟨hd, hdE⟩)
      · obtain ⟨depsn, h1, h2, h3, h4⟩ := hG.2 name hname
        refine ⟨depsn, by rw [ho1 name hna]; exact h1, h2, h3, ?_⟩
        rintro (hP | hP)
        · exact h4 hP
        · exact absurd hP hna
    obtain ⟨tables', hrun', hG'⟩ :=
      ih tables1 _ (fun x hx => hvis x (List.mem_cons_of_mem _ hx)) hG1
    refine ⟨tables', ?_, hG'.1, fun name hname => ?_⟩
    · simp only [foreignLoop, successfulDb, hrun]
      exact hrun'
    · obtain ⟨depsn, h1, h2, h3, h4⟩ := hG'.2 name hname
      refine ⟨depsn, h1, h2, h3, fun hP => h4 ?_⟩
      rcases hP with hP | hP
      · exact Or.inl (Or.inl hP)
      · rcases List.mem_cons.mp hP with h | h
        · exact Or.inl (Or.inr h)
        · exact Or.inr h

/-- C6: when no query fails, `getDependencies` returns a map whose key set is
exactly the eligible names `E`; the entry of each name is a non-nil table whose
`Name` is the key and whose `Dependencies` is a non-nil map with exactly the keys
`edgesOf name` that are in `E`, every value `true`; with no foreign keys that map
is empty. -/
theorem getDependencies_spec (ord : RangeOrder) (E : List String)
    (edgesOf : String → List String) :
    ∃ tables, getDependencies ord (successfulDb E edgesOf) = .ok tables ∧
      (∀ x, x ∈ tables.keys ↔ x ∈ E) ∧
      ∀ name ∈ E, ∃ deps, tables.lookup name = some (some ⟨name, some deps⟩) ∧
        (∀ d, d ∈ deps.keys ↔ d ∈ edgesOf name ∧ d ∈ E) ∧
        (∀ d b, deps.lookup d = some b → b = true) ∧
        (edgesOf name = [] → deps = ∅) := by
  obtain ⟨tables0, hrun0, hk0, hl0, -⟩ := scanTables_spec E ∅
  have hk0' : ∀ x, x ∈ tables0.keys ↔ x ∈ E := by
    intro x; rw [hk0]; simp
  have hG0 : Good E edgesOf tables0 (fun _ => False) := by
    refine ⟨hk0', fun name hname => ⟨∅, hl0 name hname, allTrue_empty, ?_, ?_⟩⟩
    · intro d hd; simp at hd
    · intro h; exact absurd h id
  obtain ⟨tables, hrun, hG⟩ := foreignLoop_spec E edgesOf (ord.order 0 tables0.keys) tables0 _
    (fun x hx => (hk0' x).mp ((ord.perm 0 _).mem_iff.mp hx)) hG0
  refine ⟨tables, ?_, hG.1, fun name hname => ?_⟩
  · simp only [getDependencies, successfulDb, hrun0]
    exact hrun
  · obtain ⟨deps, h1, h2, h3, h4⟩ := hG.2 name hname
    have hdone : name ∈ ord.order 0 tables0.keys :=
      (ord.perm 0 _).mem_iff.mpr ((hk0' name).mpr hname)
    refine ⟨deps, h1, fun d => ⟨h3 d, fun hd => h4 (Or.inr hdone) d hd.1 hd.2⟩, h2, ?_⟩
    intro hnil
    have hkeys : deps.keys = [] := by
      apply List.eq_nil_iff_forall_not_mem.mpr
      intro d hd
      have := (h3 d hd).1
      rw [hnil] at this
      simp at this
    apply AList.ext
    have : deps.entries.map Sigma.fst = [] := hkeys
    simpa using this

/-- The dangling reference of `orders` to `users_backup` is dropped. -/
theorem getDependencies_sample :
    (getDependencies storedOrder (successfulDb ["users", "orders"] sampleEdges)).map
        (fun tables => (tables.keys, depsOf tables "orders", depsOf tables "users")) =
      .ok (["orders", "users"], ["users"], []) := by
  decide

/-! ## `migrateTable` -/

/-- The stages that a call invokes and the errors it sends, for each way the
collaborators can answer. -/
theorem migrateTable_outcome (env : Collaborators) (table : String) (waveNum : Nat) :
    Outcome env table (calls (migrateTable env table waveNum))
      (sent (migrateTable env table waveNum)) := by
  cases h1 : env.mkdirTemp with
  | error e =>
    have hc : calls (migrateTable env table waveNum) = [.mkdirTemp] := by
      simp [migrateTable, calls, Event.isCall, h1]
    have hs : sent (migrateTable env table waveNum) =
        ["failed to create temp dir for table " ++ table ++ ": " ++ e] := by
      simp [migrateTable, sent, h1]
    rw [hc, hs]
    exact Outcome.stagingFailed e h1
  | ok dir =>
    cases h2 : (env.pgDump table (dumpFile env dir table)).err with
    | some e =>
      have hc : calls (migrateTable env table waveNum) =
          [.mkdirTemp, .pgDump table (dumpFile env dir table)] := by
        simp [migrateTable, calls, Event.isCall, h1, h2]
      have hs : sent (migrateTable env table waveNum) =
          ["failed to dump table " ++ table ++ ": " ++ e ++ "\nStdout: " ++
            (env.pgDump table (dumpFile env dir table)).stdout ++ "\nStderr: " ++
            (env.pgDump table (dumpFile env dir table)).stderr] := by
        simp [migrateTable, sent, h1, h2]
      rw [hc, hs]
      exact Outcome.dumpFailed dir e h1 h2
    | none =>
      cases h3 : env.stat (dumpFile env dir table) with
      | error e =>
        have hc : calls (migrateTable env table waveNum) =
            [.mkdirTemp, .pgDump table (dumpFile env dir table),
              .stat (dumpFile env dir table)] := by
          simp [migrateTable, calls, Event.isCall, h1, h2, h3]
        have hs : sent (migrateTable env table waveNum) =
            ["dump file for " ++ table ++ " not found: " ++ e] := by
          simp [migrateTable, sent, h1, h2, h3]
        rw [hc, hs]
        exact Outcome.dumpMissing dir e h1 h2 h3
      | ok size =>
        by_cases h4 : size = 0
        · subst h4
          have hc : calls (migrateTable env table waveNum) =
              [.mkdirTemp, .pgDump table (dumpFile env dir table),
                .stat (dumpFile env dir table)] := by
            simp [migrateTable, calls, Event.isCall, h1, h2, h3]
          have hs : sent (migrateTable env table waveNum) =
              ["dump file for " ++ table ++ " is empty"] := by
            simp [migrateTable, sent, h1, h2, h3]
          rw [hc, hs]
          exact Outcome.dumpEmpty dir h1 h2 h3
        · cases h5 : (env.psql (dumpFile env dir table)).err with
          | some e =>
            have hc : calls (migrateTable env table waveNum) =
                [.mkdirTemp, .pgDump table (dumpFile env dir table),
                  .stat (dumpFile env dir table), .psql (dumpFile env dir table)] := by
              simp [migrateTable, calls, Event.isCall, h1, h2, h3, h4, h5]
            have hs : sent (migrateTable env table waveNum) =
                ["failed to import table " ++ table ++ ": " ++ e ++ "\nStdout: " ++
                  (env.psql (dumpFile env dir table)).stdout ++ "\nStderr: " ++
                  (env.psql (dumpFile env dir table)).stderr] := by
              simp [migrateTable, sent, h1, h2, h3, h4, h5]
            rw [hc, hs]
            exact Outcome.restoreFailed dir size e h1 h2 h3 h4 h5
          | none =>
            have hc : calls (migrateTable env table waveNum) =
                [.mkdirTemp, .pgDump table (dumpFile env dir table),
                  .stat (dumpFile env dir table), .psql (dumpFile env dir table)] := by
              simp [migrateTable, calls, Event.isCall, h1, h2, h3, h4, h5]
            have hs : sent (migrateTable env table waveNum) = [] := by
              simp [migrateTable, sent, h1, h2, h3, h4, h5]
            rw [hc, hs]
            exact Outcome.migrated dir size h1 h2 h3 h4 h5

theorem outcome_sent_nil_iff {env : Collaborators} {table : String} {cs : List Event}
    {es : List String} (h : Outcome env table cs es) : es = [] ↔ AllStagesSucceed env table := by
  cases h with
  | stagingFailed err h1 =>
    refine ⟨fun h => by simp at h, ?_⟩
    rintro ⟨d, hd, -⟩
    rw [h1] at hd
    simp at hd
  | dumpFailed dir err h1 h2 =>
    refine ⟨fun h => by simp at h, ?_⟩
    rintro ⟨d, hd, hp, -⟩
    rw [h1] at hd
    obtain rfl : dir = d := by simpa using hd
    rw [h2] at hp
    simp at hp
  | dumpMissing dir err h1 h2 h3 =>
    refine ⟨fun h => by simp at h, ?_⟩
    rintro ⟨d, hd, -, ⟨size, hs, -⟩, -⟩
    rw [h1] at hd
    obtain rfl : dir = d := by simpa using hd
    rw [h3] at hs
    simp at hs
  | dumpEmpty dir h1 h2 h3 =>
    refine ⟨fun h => by simp at h, ?_⟩
    rintro ⟨d, hd, -, ⟨size, hs, hne⟩, -⟩
    rw [h1] at hd
    obtain rfl : dir = d := by simpa using hd
    rw [h3] at hs
    exact absurd (by simpa using hs.symm) hne
  | restoreFailed dir size err h1 h2 h3 h4 h5 =>
    refine ⟨fun h => by simp at h, ?_⟩
    rintro ⟨d, hd, -, -, hq⟩
    rw [h1] at hd
    obtain rfl : dir = d := by simpa using hd
    rw [h5] at hq
    simp at hq
  | migrated dir size h1 h2 h3 h4 h5 =>
    exact ⟨fun _ => ⟨dir, h1, h2, ⟨size, h3, h4⟩, h5⟩, fun _ => rfl⟩

theorem outcome_names_table {env : Collaborators} {table : String} {cs : List Event}
    {es : List String} (h : Outcome env table cs es) :
    es.length ≤ 1 ∧ ∀ e ∈ es, ∃ pre post, e = pre ++ table ++ post := by
  cases h with
  | stagingFailed err h1 =>
    refine ⟨by simp, fun e he => ?_⟩
    rw [List.mem_singleton] at he
    exact ⟨_, ": " ++ err, by rw [he, String.append_assoc, String.append_assoc]⟩
  | dumpFailed dir err h1 h2 =>
    refine ⟨by simp, fun e he => ?_⟩
    rw [List.mem_singleton] at he
    exact ⟨"failed to dump table ", ": " ++ err ++ "\nStdout: " ++
      (env.pgDump table (dumpFile env dir table)).stdout ++ "\nStderr: " ++
      (env.pgDump table (dumpFile env dir table)).stderr,
      by rw [he]; simp only [String.append_assoc]⟩
  | dumpMissing dir err h1 h2 h3 =>
    refine ⟨by simp, fun e he => ?_⟩
    rw [List.mem_singleton] at he
    exact ⟨"dump file for ", " not found: " ++ err,
      by rw [he]; simp only [String.append_assoc]⟩
  | dumpEmpty dir h1 h2 h3 =>
    refine ⟨by simp, fun e he => ?_⟩
    rw [List.mem_singleton] at he
    exact ⟨"dump file for ", " is empty", he⟩
  | restoreFailed dir size err h1 h2 h3 h4 h5 =>
    refine ⟨by simp, fun e he => ?_⟩
    rw [List.mem_singleton] at he
    exact ⟨"failed to import table ", ": " ++ err ++ "\nStdout: " ++
      (env.psql (dumpFile env dir table)).stdout ++ "\nStderr: " ++
      (env.psql (dumpFile env dir table)).stderr,
      by rw [he]; simp only [String.append_assoc]⟩
  | migrated dir size h1 h2 h3 h4 h5 =>
    exact ⟨by simp, fun e he => by simp at he⟩

theorem outcome_restore {env : Collaborators} {table : String} {cs : List Event}
    {es : List String} (h : Outcome env table cs es) (file : String)
    (hf : Event.psql file ∈ cs) :
    ∃ tempDir size, env.mkdirTemp = .ok tempDir ∧ file = dumpFile env tempDir table ∧
      (env.pgDump table file).err = none ∧ env.stat file = .ok size ∧ size ≠ 0 := by
  cases h with
  | stagingFailed err h1 => simp at hf
  | dumpFailed dir err h1 h2 => simp at hf
  | dumpMissing dir err h1 h2 h3 => simp at hf
  | dumpEmpty dir h1 h2 h3 => simp at hf
  | restoreFailed dir size err h1 h2 h3 h4 h5 =>
    have : file = dumpFile env dir table := by simpa using hf
    subst this
    exact ⟨dir, size, h1, rfl, h2, h3, h4⟩
  | migrated dir size h1 h2 h3 h4 h5 =>
    have : file = dumpFile env dir table := by simpa using hf
    subst this
    exact ⟨dir, size, h1, rfl, h2, h3, h4⟩

/-- The three causes of a failed dump give three different messages. -/
theorem dump_causes_distinct (table err rest err' : String) :
    "failed to dump table " ++ table ++ ": " ++ err ++ rest ≠
        "dump file for " ++ table ++ " not found: " ++ err' ∧
      "failed to dump table " ++ table ++ ": " ++ err ++ rest ≠
        "dump file for " ++ table ++ " is empty" ∧
      "dump file for " ++ table ++ " not found: " ++ err' ≠
        "dump file for " ++ table ++ " is empty" := by
  refine ⟨?_, ?_, ?_⟩
  · intro h
    have h1 := congrArg String.data h
    simp only [String.data_append] at h1
    have h2 := congrArg List.head? h1
    simp at h2
  · intro h
    have h1 := congrArg String.data h
    simp only [String.data_append] at h1
    have h2 := congrArg List.head? h1
    simp at h2
  · intro h
    have h1 := congrArg String.data h
    simp only [String.data_append, List.append_assoc, List.append_cancel_left_eq] at h1
    have h2 := congrArg (fun l => l.get? 1) h1
    simp at h2

/-- C9: `migrateTable` invokes the stages in the order staging, dump, verify,
restore and stops at the first stage that fails, each stage at most once; it
sends at most one error, which names the table, and nothing exactly when all four
stages succeed; `psql` runs only after a `pg_dump` without error whose file exists
with a size other than 0; a failed `pg_dump`, a missing dump file and an empty
dump file give three different messages. -/
theorem migrateTable_first_failure (env : Collaborators) (table : String) (waveNum : Nat) :
    Outcome env table (calls (migrateTable env table waveNum))
      (sent (migrateTable env table waveNum)) ∧
    (sent (migrateTable env table waveNum)).length ≤ 1 ∧
    (∀ e ∈ sent (migrateTable env table waveNum), ∃ pre post, e = pre ++ table ++ post) ∧
    (sent (migrateTable env table waveNum) = [] ↔ AllStagesSucceed env table) ∧
    (∀ file, Event.psql file ∈ calls (migrateTable env table waveNum) →
      ∃ tempDir size, env.mkdirTemp = .ok tempDir ∧ file = dumpFile env tempDir table ∧
        (env.pgDump table file).err = none ∧ env.stat file = .ok size ∧ size ≠ 0) ∧
    (∀ err rest err' : String,
      "failed to dump table " ++ table ++ ": " ++ err ++ rest ≠
          "dump file for " ++ table ++ " not found: " ++ err' ∧
        "failed to dump table " ++ table ++ ": " ++ err ++ rest ≠
          "dump file for " ++ table ++ " is empty" ∧
        "dump file for " ++ table ++ " not found: " ++ err' ≠
          "dump file for " ++ table ++ " is empty") := by
  have h := migrateTable_outcome env table waveNum
  exact ⟨h, (outcome_names_table h).1, (outcome_names_table h).2, outcome_sent_nil_iff h,
    outcome_restore h, dump_causes_distinct table⟩

/-- Three runs of `migrateTable`: all stages succeed; the dump file is empty;
`pg_dump` fails. -/
theorem migrateTable_examples :
    sent (migrateTable healthy "users" 1) = [] ∧
    calls (migrateTable healthy "users" 1) =
      [.mkdirTemp, .pgDump "users" "/tmp/dbmigration1/users_dump.sql",
        .stat "/tmp/dbmigration1/users_dump.sql", .psql "/tmp/dbmigration1/users_dump.sql"] ∧
    sent (migrateTable emptyDump "users" 1) = ["dump file for users is empty"] ∧
    calls (migrateTable emptyDump "users" 1) =
      [.mkdirTemp, .pgDump "users" "/tmp/dbmigration1/users_dump.sql",
        .stat "/tmp/dbmigration1/users_dump.sql"] ∧
    sent (migrateTable brokenDump "users" 1) =
      ["failed to dump table users: exit status 1\nStdout: \nStderr: connection refused"] ∧
    calls (migrateTable brokenDump "users" 1) =
      [.mkdirTemp, .pgDump "users" "/tmp/dbmigration1/users_dump.sql"] := by
  decide

/-! ## The wave loop of `main` -/

theorem drain_true (errs : List String) : (drain errs true).1 = true := by
  induction errs with
  | nil => rfl
  | cons e rest ih => simpa [drain] using ih

theorem drain_fst (errs : List String) (failed : Bool) :
    (drain errs failed).1 = (failed || !errs.isEmpty) := by
  cases errs with
  | nil => simp [drain]
  | cons e rest => simp [drain, drain_true]

theorem drain_quiet (errs : List String) (failed : Bool) :
    launched (drain errs failed).2 = [] ∧ ∀ e ∈ (drain errs failed).2, e.isEnd = false := by
  induction errs generalizing failed with
  | nil => simp [drain, launched]
  | cons e rest ih =>
    obtain ⟨h1, h2⟩ := ih true
    refine ⟨by simpa [drain, launched] using h1, fun x hx => ?_⟩
    simp only [drain, List.mem_cons] at hx
    rcases hx with rfl | hx
    · rfl
    · exact h2 x hx

theorem awaitWave_quiet (run : WaveRun) (wave : Wave) (failed : Bool) :
    launched (awaitWave run wave failed).2 = [] ∧
      ∀ e ∈ (awaitWave run wave failed).2, e.isEnd = false := by
  unfold awaitWave
  by_cases ht : run.timedOut = true
  · rw [if_pos ht]
    exact ⟨rfl, fun e he => by rw [List.mem_singleton] at he; rw [he]; rfl⟩
  · rw [if_neg ht]
    exact drain_quiet _ _

/-- The flag `failed` is a latch: the `select` sets it or leaves it as it is. -/
theorem awaitWave_latch (run : WaveRun) (wave : Wave) (failed : Bool) :
    (awaitWave run wave failed).1 = (failed || (awaitWave run wave false).1) := by
  unfold awaitWave
  by_cases ht : run.timedOut = true
  · simp [ht]
  · simp [ht, drain_fst]

theorem errChan_eq_nil_iff (run : WaveRun) (wave : Wave) :
    errChan run wave = [] ↔
      ∀ table ∈ wave.Tables, sent (migrateTable (run.jobs table) table wave.Number) = [] := by
  unfold errChan
  rw [← List.flatMap_eq_nil_iff]
  constructor
  · intro h
    have hp := run.arrival.perm 0
      (wave.Tables.flatMap fun table => sent (migrateTable (run.jobs table) table wave.Number))
    rw [h] at hp
    exact hp.nil_eq.symm
  · intro h
    rw [h]
    exact List.perm_nil.mp (run.arrival.perm 0 [])

theorem awaitWave_ok_iff (run : WaveRun) (wave : Wave) :
    (awaitWave run wave false).1 = false ↔
      run.timedOut = false ∧
        ∀ table ∈ wave.Tables,
          sent (migrateTable (run.jobs table) table wave.Number) = [] := by
  rw [← errChan_eq_nil_iff]
  unfold awaitWave
  by_cases ht : run.timedOut = true
  · simp [ht]
  · simp [ht, drain_fst]

theorem launchJobs_quiet (waveNum : Nat) (tables : List String) :
    launched (launchJobs waveNum tables) = tables.map (fun table => (table, waveNum)) ∧
      ∀ e ∈ launchJobs waveNum tables, e.isEnd = false := by
  induction tables with
  | nil => simp [launchJobs, launched]
  | cons t rest ih =>
    refine ⟨by simpa [launchJobs, launched] using ih.1, fun e he => ?_⟩
    simp only [launchJobs, List.mem_cons] at he
    rcases he with rfl | rfl | he
    · rfl
    · rfl
    · exact ih.2 e he

theorem launched_append (xs ys : List MainEvent) :
    launched (xs ++ ys) = launched xs ++ launched ys := by
  simp [launched]

/-- A wave that is not reported failed: its jobs are started and the loop goes on
to the next wave with `failed` still unset. -/
theorem waveLoop_ok (runs : Nat → WaveRun) (i : Nat) (wave : Wave) (rest : List Wave)
    (h : waveFailed runs i wave = false) :
    ∃ head, waveLoop runs i false (wave :: rest) = head ++ waveLoop runs (i + 1) false rest ∧
      launched head = wave.Tables.map (fun table => (table, wave.Number)) ∧
      ∀ e ∈ head, e.isEnd = false := by
  unfold waveFailed at h
  refine ⟨.log ("Processing wave " ++ toString wave.Number ++ " with " ++
      toString wave.Tables.length ++ " tables") ::
    (launchJobs wave.Number wave.Tables ++ (awaitWave (runs i) wave false).2), ?_, ?_, ?_⟩
  · simp [waveLoop, h]
  · have h1 := (launchJobs_quiet wave.Number wave.Tables).1
    have h2 := (awaitWave_quiet (runs i) wave false).1
    have : launched (.log ("Processing wave " ++ toString wave.Number ++ " with " ++
        toString wave.Tables.length ++ " tables") ::
        (launchJobs wave.Number wave.Tables ++ (awaitWave (runs i) wave false).2)) =
        launched (launchJobs wave.Number wave.Tables ++ (awaitWave (runs i) wave false).2) := by
      simp [launched]
    rw [this, launched_append, h1, h2, List.append_nil]
  · intro e he
    rcases List.mem_cons.mp he with rfl | he
    · rfl
    · rcases List.mem_append.mp he with he | he
      · exact (launchJobs_quiet _ _).2 e he
      · exact (awaitWave_quiet _ _ _).2 e he

/-- A wave that is reported failed: its jobs are started and the run ends with the
fatal message. -/
theorem waveLoop_failed (runs : Nat → WaveRun) (i : Nat) (wave : Wave) (rest : List Wave)
    (h : waveFailed runs i wave = true) :
    ∃ head, waveLoop runs i false (wave :: rest) = head ++ [.fatal "Migration failed"] ∧
      launched head = wave.Tables.map (fun table => (table, wave.Number)) ∧
      ∀ e ∈ head, e.isEnd = false := by
  unfold waveFailed at h
  refine ⟨.log ("Processing wave " ++ toString wave.Number ++ " with " ++
      toString wave.Tables.length ++ " tables") ::
    (launchJobs wave.Number wave.Tables ++ (awaitWave (runs i) wave false).2), ?_, ?_, ?_⟩
  · simp [waveLoop, h]
  · have h1 := (launchJobs_quiet wave.Number wave.Tables).1
    have h2 := (awaitWave_quiet (runs i) wave false).1
    have : launched (.log ("Processing wave " ++ toString wave.Number ++ " with " ++
        toString wave.Tables.length ++ " tables") ::
        (launchJobs wave.Number wave.Tables ++ (awaitWave (runs i) wave false).2)) =
        launched (launchJobs wave.Number wave.Tables ++ (awaitWave (runs i) wave false).2) := by
      simp [launched]
    rw [this, launched_append, h1, h2, List.append_nil]
  · intro e he
    rcases List.mem_cons.mp he with rfl | he
    · rfl
    · rcases List.mem_append.mp he with he | he
      · exact (launchJobs_quiet _ _).2 e he
      · exact (awaitWave_quiet _ _ _).2 e he

theorem jobsOf_cons (w : Wave) (ws : List Wave) :
    jobsOf (w :: ws) = w.Tables.map (fun table => (table, w.Number)) ++ jobsOf ws := by
  simp [jobsOf]

theorem waveLoop_first_failure (runs : Nat → WaveRun) :
    ∀ (pre : List Wave) (i : Nat) (w : Wave) (post : List Wave),
      (∀ p1 w' p2, pre = p1 ++ w' :: p2 → waveFailed runs (i + p1.length) w' = false) →
      waveFailed runs (i + pre.length) w = true →
      ∃ body, waveLoop runs i false (pre ++ w :: post) = body ++ [.fatal "Migration failed"] ∧
        launched body = jobsOf (pre ++ [w]) ∧ ∀ e ∈ body, e.isEnd = false := by
  intro pre
  induction pre with
  | nil =>
    intro i w post _ hw
    obtain ⟨head, h1, h2, h3⟩ := waveLoop_failed runs i w post (by simpa using hw)
    exact ⟨head, h1, by simpa [jobsOf] using h2, h3⟩
  | cons p pre ih =>
    intro i w post hpre hw
    have hp : waveFailed runs i p = false := by simpa using hpre [] p pre rfl
    obtain ⟨head, h1, h2, h3⟩ := waveLoop_ok runs i p (pre ++ w :: post) hp
    obtain ⟨body, b1, b2, b3⟩ := ih (i + 1) w post
      (fun p1 w' p2 h => by
        have := hpre (p :: p1) w' p2 (by rw [h]; rfl)
        rw [List.length_cons] at this
        rw [← this]; congr 1; omega)
      (by rw [← hw, List.length_cons]; congr 1; omega)
    refine ⟨head ++ body, ?_, ?_, ?_⟩
    · rw [List.cons_append, h1, b1, List.append_assoc]
    · rw [launched_append, h2, b2, List.cons_append, jobsOf_cons]
    · intro e he
      rcases List.mem_append.mp he with he | he
      · exact h3 e he
      · exact b3 e he

theorem waveLoop_all_ok (runs : Nat → WaveRun) :
    ∀ (ws : List Wave) (i : Nat),
      (∀ p1 w p2, ws = p1 ++ w :: p2 → waveFailed runs (i + p1.length) w = false) →
      ∃ body, waveLoop runs i false ws = body ++ [.completed] ∧
        launched body = jobsOf ws ∧ ∀ e ∈ body, e.isEnd = false := by
  intro ws
  induction ws with
  | nil =>
    intro i _
    exact ⟨[], rfl, rfl, fun e he => by simp at he⟩
  | cons p ws ih =>
    intro i hall
    have hp : waveFailed runs i p = false := by simpa using hall [] p ws rfl
    obtain ⟨head, h1, h2, h3⟩ := waveLoop_ok runs i p ws hp
    obtain ⟨body, b1, b2, b3⟩ := ih (i + 1)
      (fun p1 w' p2 h => by
        have := hall (p :: p1) w' p2 (by rw [h]; rfl)
        rw [List.length_cons] at this
        rw [← this]; congr 1; omega)
    refine ⟨head ++ body, ?_, ?_, ?_⟩
    · rw [h1, b1, List.append_assoc]
    · rw [launched_append, h2, b2, jobsOf_cons]
    · intro e he
      rcases List.mem_append.mp he with he | he
      · exact h3 e he
      · exact b3 e he

theorem waveLoop_completed (runs : Nat → WaveRun) :
    ∀ (ws : List Wave) (i : Nat), MainEvent.completed ∈ waveLoop runs i false ws →
      ∀ p1 w p2, ws = p1 ++ w :: p2 → waveFailed runs (i + p1.length) w = false := by
  intro ws
  induction ws with
  | nil => intro i _ p1 w p2 h; simp at h
  | cons p ws ih =>
    intro i hc p1 w p2 hsplit
    cases hp : waveFailed runs i p with
    | true =>
      exfalso
      obtain ⟨head, h1, -, h3⟩ := waveLoop_failed runs i p ws hp
      rw [h1] at hc
      rcases List.mem_append.mp hc with hc | hc
      · exact absurd (h3 _ hc) (by decide)
      · simp at hc
    | false =>
      obtain ⟨head, h1, -, h3⟩ := waveLoop_ok runs i p ws hp
      rw [h1] at hc
      have hc' : MainEvent.completed ∈ waveLoop runs (i + 1) false ws := by
        rcases List.mem_append.mp hc with hc | hc
        · exact absurd (h3 _ hc) (by decide)
        · exact hc
      cases p1 with
      | nil =>
        simp only [List.nil_append, List.cons.injEq] at hsplit
        rw [← hsplit.1]
        simpa using hp
      | cons q p1 =>
        simp only [List.cons_append, List.cons.injEq] at hsplit
        have := ih (i + 1) hc' p1 w p2 hsplit.2
        rw [← this, List.length_cons]; congr 1; omega

theorem waveFailed_eq_false_iff (runs : Nat → WaveRun) (i : Nat) (wave : Wave) :
    waveFailed runs i wave = false ↔
      (runs i).timedOut = false ∧ ∀ table ∈ wave.Tables,
        sent (migrateTable ((runs i).jobs table) table wave.Number) = [] :=
  awaitWave_ok_iff (runs i) wave

theorem waveFailed_of_failure (runs : Nat → WaveRun) (i : Nat) (wave : Wave)
    (h : (runs i).timedOut = true ∨ ∃ table ∈ wave.Tables,
      sent (migrateTable ((runs i).jobs table) table wave.Number) ≠ []) :
    waveFailed runs i wave = true := by
  cases hf : waveFailed runs i wave with
  | true => rfl
  | false =>
    obtain ⟨h1, h2⟩ := (waveFailed_eq_false_iff runs i wave).mp hf
    rcases h with h | ⟨table, ht, hne⟩
    · rw [h1] at h
      exact absurd h (by decide)
    · exact absurd (h2 table ht) hne

/-- C7: the waves are processed in slice order. Let `w` be the first wave in which
the `select` takes the timeout branch or a job sends an error on `errChan`, every
wave before it having ended in time without an error. Then the run is the work
on the waves up to `w` followed by the fatal "Migration failed" and nothing
else: the jobs started are exactly those of the waves up to `w`, none of a later
wave, and there is no success message. When no wave times out and no job sends an
error, the jobs of all waves are started, in order, and the run ends with the
success message; the success message appears only in that case. The `select`
never clears `failed`. -/
theorem waveLoop_halts_on_failure (runs : Nat → WaveRun) (waves : List Wave) :
    (∀ pre w post, waves = pre ++ w :: post →
      (∀ p1 w' p2, pre = p1 ++ w' :: p2 →
        (runs p1.length).timedOut = false ∧ ∀ table ∈ w'.Tables,
          sent (migrateTable ((runs p1.length).jobs table) table w'.Number) = []) →
      ((runs pre.length).timedOut = true ∨ ∃ table ∈ w.Tables,
        sent (migrateTable ((runs pre.length).jobs table) table w.Number) ≠ []) →
      ∃ body, waveLoop runs 0 false waves = body ++ [.fatal "Migration failed"] ∧
        launched body = jobsOf (pre ++ [w]) ∧ (∀ e ∈ body, e.isEnd = false) ∧
        launched (waveLoop runs 0 false waves) = jobsOf (pre ++ [w]) ∧
        MainEvent.completed ∉ waveLoop runs 0 false waves) ∧
    ((∀ p1 w p2, waves = p1 ++ w :: p2 →
        (runs p1.length).timedOut = false ∧ ∀ table ∈ w.Tables,
          sent (migrateTable ((runs p1.length).jobs table) table w.Number) = []) →
      ∃ body, waveLoop runs 0 false waves = body ++ [.completed] ∧
        launched body = jobsOf waves ∧ ∀ e ∈ body, e.isEnd = false) ∧
    (MainEvent.completed ∈ waveLoop runs 0 false waves →
      ∀ p1 w p2, waves = p1 ++ w :: p2 →
        (runs p1.length).timedOut = false ∧ ∀ table ∈ w.Tables,
          sent (migrateTable ((runs p1.length).jobs table) table w.Number) = [] ∧
            AllStagesSucceed ((runs p1.length).jobs table) table) ∧
    (∀ (run : WaveRun) (wave : Wave) (failed : Bool),
      (awaitWave run wave failed).1 = (failed || (awaitWave run wave false).1)) := by
  refine ⟨?_, ?_, ?_, awaitWave_latch⟩
  · intro pre w post hsplit hpre hw
    subst hsplit
    obtain ⟨body, h1, h2, h3⟩ := waveLoop_first_failure runs pre 0 w post
      (fun p1 w' p2 h => by
        simpa using (waveFailed_eq_false_iff runs p1.length w').mpr (hpre p1 w' p2 h))
      (by simpa using waveFailed_of_failure runs pre.length w hw)
    refine ⟨body, h1, h2, h3, ?_, ?_⟩
    · rw [h1, launched_append, h2]
      simp [launched]
    · rw [h1]
      intro hc
      rcases List.mem_append.mp hc with hc | hc
      · exact absurd (h3 _ hc) (by decide)
      · simp at hc
  · intro hall
    exact waveLoop_all_ok runs waves 0 (fun p1 w p2 h => by
      simpa using (waveFailed_eq_false_iff runs p1.length w).mpr (hall p1 w p2 h))
  · intro hc p1 w p2 h
    have hf : waveFailed runs p1.length w = false := by
      simpa using waveLoop_completed runs waves 0 hc p1 w p2 h
    obtain ⟨h1, h2⟩ := (waveFailed_eq_false_iff runs p1.length w).mp hf
    exact ⟨h1, fun table ht => ⟨h2 table ht,
      (outcome_sent_nil_iff (migrateTable_outcome _ table w.Number)).mp (h2 table ht)⟩⟩

/-- The statement of C7 at three waves in which the job of `orders`, in the second
wave, fails in `pg_dump` while no wave times out: the jobs of the first two waves
are started, the job of `line_items` in the third wave is not, and the run ends
with the fatal message. -/
theorem waveLoop_halts_on_failure_witness :
    waveLoop (fun _ => brokenRun) 0 false
        [⟨["users"], 1⟩, ⟨["orders"], 2⟩, ⟨["line_items"], 3⟩] =
      [.log "Processing wave 1 with 1 tables", .launch "users" 1, .sleep,
        .log "Processing wave 2 with 1 tables", .launch "orders" 2, .sleep,
        .log ("Error: failed to dump table orders: exit status 1\nStdout: " ++
          "\nStderr: connection refused"),
        .fatal "Migration failed"] ∧
    launched (waveLoop (fun _ => brokenRun) 0 false
        [⟨["users"], 1⟩, ⟨["orders"], 2⟩, ⟨["line_items"], 3⟩]) =
      [("users", 1), ("orders", 2)] ∧
    MainEvent.completed ∉ waveLoop (fun _ => brokenRun) 0 false
        [⟨["users"], 1⟩, ⟨["orders"], 2⟩, ⟨["line_items"], 3⟩] := by
  refine ⟨by decide, ?_⟩
  obtain ⟨body, -, -, -, h, hc⟩ :=
    (waveLoop_halts_on_failure (fun _ => brokenRun)
      [⟨["users"], 1⟩, ⟨["orders"], 2⟩, ⟨["line_items"], 3⟩]).1
      [⟨["users"], 1⟩] ⟨["orders"], 2⟩ [⟨["line_items"], 3⟩] rfl
      (fun p1 w' p2 h => by
        cases p1 with
        | nil =>
          simp only [List.nil_append, List.cons.injEq] at h
          obtain ⟨rfl, -⟩ := h
          decide
        | cons q p1 => simp at h)
      (Or.inr ⟨"orders", by simp, by decide⟩)
  exact ⟨h, hc⟩

/-- C8: a wave is reported successful exactly when the `select` takes the `wgDone`
branch, which is open once all jobs have returned, and no job has sent an error,
that is, when all stages of all jobs succeed. One job that sends an error makes
the wave failed whatever the other jobs do, and so does the timeout branch
whatever the jobs do. A failed wave ends the run with the fatal message, a
successful one lets the loop go on to the next wave. -/
theorem waveFailed_iff (runs : Nat → WaveRun) (i : Nat) (wave : Wave) :
    (waveFailed runs i wave = false ↔
      (runs i).timedOut = false ∧ ∀ table ∈ wave.Tables,
        sent (migrateTable ((runs i).jobs table) table wave.Number) = []) ∧
    (waveFailed runs i wave = false ↔
      (runs i).timedOut = false ∧ ∀ table ∈ wave.Tables,
        AllStagesSucceed ((runs i).jobs table) table) ∧
    ((∃ table ∈ wave.Tables,
        sent (migrateTable ((runs i).jobs table) table wave.Number) ≠ []) →
      waveFailed runs i wave = true) ∧
    ((runs i).timedOut = true → waveFailed runs i wave = true) ∧
    (∀ rest, waveFailed runs i wave = true →
      ∃ head, waveLoop runs i false (wave :: rest) = head ++ [.fatal "Migration failed"] ∧
        ∀ e ∈ head, e.isEnd = false) ∧
    (∀ rest, waveFailed runs i wave = false →
      ∃ head, waveLoop runs i false (wave :: rest) =
          head ++ waveLoop runs (i + 1) false rest ∧
        ∀ e ∈ head, e.isEnd = false) := by
  have hiff := awaitWave_ok_iff (runs i) wave
  refine ⟨hiff, ?_, ?_, ?_, ?_, ?_⟩
  · unfold waveFailed
    rw [hiff]
    constructor
    · rintro ⟨h1, h2⟩
      exact ⟨h1, fun table ht =>
        (outcome_sent_nil_iff (migrateTable_outcome _ table wave.Number)).mp (h2 table ht)⟩
    · rintro ⟨h1, h2⟩
      exact ⟨h1, fun table ht =>
        (outcome_sent_nil_iff (migrateTable_outcome _ table wave.Number)).mpr (h2 table ht)⟩
  · rintro ⟨table, ht, hne⟩
    unfold waveFailed
    cases hf : (awaitWave (runs i) wave false).1 with
    | true => rfl
    | false => exact absurd ((hiff.mp hf).2 table ht) hne
  · intro hto
    unfold waveFailed
    cases hf : (awaitWave (runs i) wave false).1 with
    | true => rfl
    | false =>
      have := (hiff.mp hf).1
      rw [hto] at this
      exact absurd this (by decide)
  · intro rest h
    obtain ⟨head, h1, -, h3⟩ := waveLoop_failed runs i wave rest h
    exact ⟨head, h1, h3⟩
  · intro rest h
    obtain ⟨head, h1, -, h3⟩ := waveLoop_ok runs i wave rest h
    exact ⟨head, h1, h3⟩

/-- Three waves of two tables: all jobs succeed in time; all jobs succeed but the
timeout fires first; one job fails while the other succeeds. -/
theorem waveFailed_examples :
    waveFailed (fun _ => calmRun) 0 ⟨["users", "orders"], 1⟩ = false ∧
    waveFailed (fun _ => lateRun) 0 ⟨["users", "orders"], 1⟩ = true ∧
    waveFailed (fun _ => brokenRun) 0 ⟨["users", "orders"], 1⟩ = true ∧
    sent (migrateTable (brokenRun.jobs "users") "users" 1) = [] := by
  decide

/-! ## The semaphore -/

/-- On every path through `migrateTable` the first step is the only `acquire` and
the last two steps are the only `release` and `wg.Done()`. -/
theorem migrateTable_shape (env : Collaborators) (table : String) (waveNum : Nat) :
    ∃ mid, migrateTable env table waveNum = .acquire :: mid ++ [.release, .wgDone] ∧
      Event.acquire ∉ mid ∧ Event.release ∉ mid := by
  cases h1 : env.mkdirTemp with
  | error e =>
    exact ⟨[.log ("Starting migration for table " ++ table ++ " (Wave " ++
      toString waveNum ++ ")"), .mkdirTemp,
      .send ("failed to create temp dir for table " ++ table ++ ": " ++ e)],
      by simp [migrateTable, h1], by simp, by simp⟩
  | ok dir =>
    cases h2 : (env.pgDump table (dumpFile env dir table)).err with
    | some e =>
      exact ⟨_ :: _ :: _ :: _ :: [.removeAll dir],
        by simp only [migrateTable, h1, h2]; rfl, by simp, by simp⟩
    | none =>
      cases h3 : env.stat (dumpFile env dir table) with
      | error e =>
        exact ⟨_ :: _ :: _ :: _ :: _ :: [.removeAll dir],
          by simp only [migrateTable, h1, h2, h3]; rfl, by simp, by simp⟩
      | ok size =>
        by_cases h4 : size = 0
        · exact ⟨_ :: _ :: _ :: _ :: _ :: [.removeAll dir],
            by simp only [migrateTable, h1, h2, h3, h4, if_true]; rfl, by simp, by simp⟩
        · cases h5 : (env.psql (dumpFile env dir table)).err with
          | some e =>
            exact ⟨_ :: _ :: _ :: _ :: _ :: _ :: [.removeAll dir],
              by simp only [migrateTable, h1, h2, h3, h4, h5, if_false]; rfl,
              by simp, by simp⟩
          | none =>
            exact ⟨_ :: _ :: _ :: _ :: _ :: _ :: [.removeAll dir],
              by simp only [migrateTable, h1, h2, h3, h4, h5, if_false]; rfl,
              by simp, by simp⟩

theorem jobShape_start (env : Collaborators) (table : String) (waveNum : Nat) :
    JobShape ⟨[], migrateTable env table waveNum⟩ := by
  obtain ⟨mid, h, ha, hr⟩ := migrateTable_shape env table waveNum
  refine ⟨mid ++ [.release, .wgDone], by simpa using h, ?_, ?_⟩
  · simp [ha]
  · rw [List.count_append, List.count_eq_zero_of_not_mem hr]
    decide

/-- What a step of a goroutine is: it moves its next event from `todo` to `done`;
an `acquire` needs room in the buffer and adds a value, a `release` needs a value
in the buffer and takes it, any other event leaves the buffer alone. -/
theorem Job.step_cases {job job' : Job} {permits permits' : Nat}
    (h : job.step permits = some (permits', job')) :
    ∃ e rest, job.todo = e :: rest ∧ job' = ⟨job.done ++ [e], rest⟩ ∧
      (e = .acquire → permits < maxWorkers ∧ permits' = permits + 1) ∧
      (e = .release → 0 < permits ∧ permits' + 1 = permits) ∧
      (e ≠ .acquire → e ≠ .release → permits' = permits) := by
  unfold Job.step at h
  cases htodo : job.todo with
  | nil => rw [htodo] at h; simp at h
  | cons e rest =>
    rw [htodo] at h
    refine ⟨e, rest, rfl, ?_⟩
    cases e with
    | acquire =>
      by_cases hg : permits < maxWorkers
      · simp only [hg, if_true, Option.some.injEq, Prod.mk.injEq] at h
        exact ⟨h.2.symm, fun _ => ⟨hg, h.1.symm⟩, fun h' => by simp at h', fun h' => absurd rfl h'⟩
      · simp [hg] at h
    | release =>
      by_cases hg : 0 < permits
      · simp only [hg, if_true, Option.some.injEq, Prod.mk.injEq] at h
        exact ⟨h.2.symm, fun h' => by simp at h', fun _ => ⟨hg, by omega⟩,
          fun _ h' => absurd rfl h'⟩
      · simp [hg] at h
    | wgDone | log _ | mkdirTemp | removeAll _ | pgDump _ _ | stat _ | psql _ | send _ =>
      simp only [Option.some.injEq, Prod.mk.injEq] at h
      exact ⟨h.2.symm, fun h' => by simp at h', fun h' => by simp at h', fun _ _ => h.1.symm⟩

/-- A step keeps the shape of the job and moves the buffer together with the
permit of the goroutine. -/
theorem Job.step_spec {job job' : Job} {permits permits' : Nat} (hs : JobShape job)
    (h : job.step permits = some (permits', job')) :
    JobShape job' ∧ permits' + job.holdsPermit.toNat = permits + job'.holdsPermit.toNat ∧
      (permits ≤ maxWorkers → permits' ≤ maxWorkers) := by
  obtain ⟨e, rest, htodo, hjob', hacq, hrel, hother⟩ := Job.step_cases h
  obtain ⟨tail, hfull, hta, htr⟩ := hs
  rw [htodo] at hfull
  subst hjob'
  refine ⟨⟨tail, by simpa using hfull, hta, htr⟩, ?_⟩
  by_cases hea : e = .acquire
  · subst hea
    obtain ⟨hg, hp⟩ := hacq rfl
    have hdone : job.done = [] := by
      cases hd : job.done with
      | nil => rfl
      | cons d ds =>
        rw [hd] at hfull
        simp only [List.cons_append, List.cons.injEq] at hfull
        exact absurd (by rw [← hfull.2]; simp) hta
    refine ⟨?_, fun _ => by omega⟩
    simp [Job.holdsPermit, hdone, hp]
  · by_cases her : e = .release
    · subst her
      obtain ⟨hg, hp⟩ := hrel rfl
      cases hd : job.done with
      | nil =>
        rw [hd] at hfull
        simp at hfull
      | cons d ds =>
        rw [hd] at hfull
        simp only [List.cons_append, List.cons.injEq] at hfull
        obtain ⟨rfl, htail⟩ := hfull
        have hds : Event.release ∉ ds := by
          rw [← htail, List.count_append, List.count_cons_self] at htr
          exact List.count_eq_zero.mp (by omega)
        refine ⟨?_, fun _ => by omega⟩
        have hb : (Job.holdsPermit ⟨job.done, job.todo⟩) = true := by
          simp [Job.holdsPermit, hd, hds]
        have ha : (Job.holdsPermit ⟨job.done ++ [.release], rest⟩) = false := by
          simp [Job.holdsPermit]
        have hb' : job.holdsPermit = true := hb
        rw [← hd, ha, hb']
        simp only [Bool.toNat_true, Bool.toNat_false]
        omega
    · have hp := hother hea her
      refine ⟨?_, fun hle => by omega⟩
      have h1 : (Event.acquire ∈ job.done ++ [e]) ↔ Event.acquire ∈ job.done := by
        simp [List.mem_append, Ne.symm hea]
      have h2 : (Event.release ∈ job.done ++ [e]) ↔ Event.release ∈ job.done := by
        simp [List.mem_append, Ne.symm her]
      simp only [Job.holdsPermit, h1, h2, hp]

theorem countP_set {α : Type} (q : α → Bool) :
    ∀ (l : List α) (j : Nat) (a b : α), l[j]? = some a →
      (l.set j b).countP q + (q a).toNat = l.countP q + (q b).toNat := by
  intro l
  induction l with
  | nil => intro j a b h; simp at h
  | cons x xs ih =>
    intro j a b h
    cases j with
    | zero =>
      simp only [List.getElem?_cons_zero, Option.some.injEq] at h
      subst h
      simp only [List.set_cons_zero, List.countP_cons]
      cases q x <;> cases q b <;> simp
    | succ j =>
      simp only [List.getElem?_cons_succ] at h
      have := ih j a b h
      simp only [List.set_cons_succ, List.countP_cons]
      omega

theorem poolInv_start (specs : List (Collaborators × String × Nat)) :
    PoolInv (startPool specs) := by
  refine ⟨?_, ?_, Nat.zero_le _⟩
  · intro job hjob
    simp only [startPool, List.mem_map] at hjob
    obtain ⟨spec, -, rfl⟩ := hjob
    exact jobShape_start _ _ _
  · show List.countP Job.holdsPermit _ = 0
    rw [List.countP_eq_zero]
    intro job hjob
    simp only [startPool, List.mem_map] at hjob
    obtain ⟨spec, -, rfl⟩ := hjob
    simp [Job.holdsPermit]

theorem poolInv_step (p : Pool) (j : Nat) (h : PoolInv p) : PoolInv (p.step j) := by
  cases hj : p.jobs[j]? with
  | none =>
    have hstep : p.step j = p := by simp [Pool.step, hj]
    rw [hstep]
    exact h
  | some job =>
    have hmem : job ∈ p.jobs := List.getElem?_mem hj
    cases hs : job.step p.permits with
    | none =>
      have hstep : p.step j = p := by simp [Pool.step, hj, hs]
      rw [hstep]
      exact h
    | some r =>
      obtain ⟨permits', job'⟩ := r
      have hstep : p.step j = ⟨permits', p.jobs.set j job'⟩ := by simp [Pool.step, hj, hs]
      rw [hstep]
      obtain ⟨hshape, hcount, hle⟩ := Job.step_spec (h.1 job hmem) hs
      refine ⟨?_, ?_, hle h.2.2⟩
      · intro x hx
        rcases List.mem_or_eq_of_mem_set hx with hx | rfl
        · exact h.1 x hx
        · exact hshape
      · have hset := countP_set Job.holdsPermit p.jobs j job job' hj
        have hold := h.2.1
        show List.countP Job.holdsPermit (p.jobs.set j job') = permits'
        omega

theorem poolInv_run (schedule : List Nat) : ∀ p : Pool, PoolInv p → PoolInv (p.run schedule) := by
  induction schedule with
  | nil => intro p h; exact h
  | cons j rest ih => intro p h; exact ih (p.step j) (poolInv_step p j h)

/-- A goroutine at its deferred receive holds a permit, so the buffer is not
empty and the receive goes through. -/
theorem release_enabled (p : Pool) (h : PoolInv p) (j : Nat) (job : Job) (rest : List Event)
    (hj : p.jobs[j]? = some job) (htodo : job.todo = .release :: rest) :
    p.step j = ⟨p.permits - 1, p.jobs.set j ⟨job.done ++ [.release], rest⟩⟩ := by
  have hmem : job ∈ p.jobs := List.getElem?_mem hj
  obtain ⟨tail, hfull, hta, htr⟩ := h.1 job hmem
  rw [htodo] at hfull
  have hholds : job.holdsPermit = true := by
    cases hd : job.done with
    | nil => rw [hd] at hfull; simp at hfull
    | cons d ds =>
      rw [hd] at hfull
      simp only [List.cons_append, List.cons.injEq] at hfull
      obtain ⟨rfl, htail⟩ := hfull
      have hds : Event.release ∉ ds := by
        rw [← htail, List.count_append, List.count_cons_self] at htr
        exact List.count_eq_zero.mp (by omega)
      simp [Job.holdsPermit, hd, hds]
  have hpos : 0 < p.permits := by
    rw [← h.2.1]
    exact List.countP_pos_iff.mpr ⟨job, hmem, hholds⟩
  simp [Pool.step, hj, Job.step, htodo, hpos]

/-- C10: from the start of a run, along every interleaving of the steps of any
number of jobs, the number of jobs that have acquired the semaphore and not yet
released it equals the number of values in the buffer of `semaphore` and is at
most `maxWorkers = 4`; a job at its deferred receive is never blocked; and on
every path through `migrateTable` the first step is the only `acquire` and the
last steps are the only `release` and `wg.Done()`. -/
theorem semaphore_bound (specs : List (Collaborators × String × Nat)) (schedule : List Nat) :
    ((startPool specs).run schedule).holders = ((startPool specs).run schedule).permits ∧
    ((startPool specs).run schedule).holders ≤ maxWorkers ∧
    ((startPool specs).run schedule).holders ≤ 4 ∧
    (∀ j job rest, ((startPool specs).run schedule).jobs[j]? = some job →
      job.todo = .release :: rest →
      ((startPool specs).run schedule).step j =
        ⟨((startPool specs).run schedule).permits - 1,
          ((startPool specs).run schedule).jobs.set j ⟨job.done ++ [.release], rest⟩⟩) ∧
    (∀ env table waveNum, ∃ mid,
      migrateTable env table waveNum = .acquire :: mid ++ [.release, .wgDone] ∧
        Event.acquire ∉ mid ∧ Event.release ∉ mid) := by
  have h := poolInv_run schedule (startPool specs) (poolInv_start specs)
  have hle : ((startPool specs).run schedule).holders ≤ maxWorkers := by
    show List.countP Job.holdsPermit _ ≤ _
    rw [h.2.1]
    exact h.2.2
  exact ⟨h.2.1, hle, hle, fun j job rest hj ht => release_enabled _ h j job rest hj ht,
    migrateTable_shape⟩

/-- Six jobs that all try to start: four get a permit, two are blocked; once the
first job has run to its end the fifth gets its permit. -/
theorem semaphore_example :
    ((startPool sixJobs).run [0, 1, 2, 3, 4, 5]).holders = 4 ∧
    ((startPool sixJobs).run [0, 1, 2, 3, 4, 5]).permits = 4 ∧
    ((startPool sixJobs).run ([0, 1, 2, 3, 4, 5] ++ [0, 0, 0, 0, 0, 0, 0, 0])).holders = 3 ∧
    ((startPool sixJobs).run ([0, 1, 2, 3, 4, 5] ++ [0, 0, 0, 0, 0, 0, 0, 0] ++ [4])).holders
      = 4 := by
  decide

end MigrateDown
